import Mathlib

/-!
# todo-cli: the JSON record store of `main.go`

A shallow embedding of `JSONStorage` (`Initialize`, `ReadAll`, `SaveAll`,
`Create`, `Delete`, `Update`) and the properties of the storage contract.

Modelling decisions.

* `Schedule.ID` is a Go `int`.  It is an `Int` here and the only arithmetic the
  program performs on it, the `+ 1` of `Create`, is reduced with `wrapInt`
  to the 64-bit two's complement range, as Go does on 64-bit targets.
* Go strings are Lean `String`s: text, that is, sequences of Unicode scalar
  values.  Byte strings that are not valid UTF-8 are outside the model.
* The backing file `js.filename` is the state `Disk`: absent or present with a
  content, together with the number of `os.WriteFile` calls made on it.
  `os.ReadFile` fails exactly when the file is absent and `os.WriteFile`
  always succeeds: permission and device failures are outside the model.
* `encoding/json` is not part of the repository.  Its two entry points used by
  the storage are the fields of the parameter `JSON`; what the storage needs
  from them is the explicit assumption `JSON.Sound`, and the properties of the
  storage are proved for every `JSON` that meets it.  `specJSON` is the
  instance modelled from the file format the spec describes; it meets the
  assumption, and the concrete runs below use it.
* A Go function returning `error` is a function returning `Option Error`
  (`none` is `nil`) next to the state of the disk it leaves.
-/

namespace TodoCli

set_option maxRecDepth 10000

/-! ## Data model -/

/-- The Go struct `Schedule` (main.go:23). -/
structure Schedule where
  ID : Int
  Title : String
  Time : String
  Details : String
deriving DecidableEq, Repr

/-- The largest Go `int` on a 64-bit target. -/
def maxInt : Int := 9223372036854775807

/-- The smallest Go `int` on a 64-bit target. -/
def minInt : Int := -9223372036854775808

/-- The values of Go's `int`. -/
def isInt (x : Int) : Prop := minInt ≤ x ∧ x ≤ maxInt

instance (x : Int) : Decidable (isInt x) := by unfold isInt; infer_instance

/-- Reduction of an integer to Go's 64-bit two's complement `int`. -/
def wrapInt (x : Int) : Int :=
  (x + 9223372036854775808) % 18446744073709551616 - 9223372036854775808

/-- Go error values: the ones made by `errors.New` (and those of the `os` and
`json` packages), and the ones made by `fmt.Errorf` with one `%w` operand and
at most one `%d` operand. -/
inductive Error where
  | New (text : String)
  | Errorf (format : String) (w : Error) (d : Option Int)
deriving DecidableEq, Repr

/-- The Go function `errors.Is`: `target` is `err` or is in its `%w` chain. -/
def Error.Is (err target : Error) : Bool :=
  if err = target then true
  else match err with
    | .New _ => false
    | .Errorf _ w _ => w.Is target

/-- The variable `ErrScheduleNotFound` (main.go:30). -/
def ErrScheduleNotFound : Error := .New "agendamento não encontrado"

/-- The variable `ErrCannotReadID` (main.go:31). -/
def ErrCannotReadID : Error := .New "não foi possível ler ID"

/-! ## The operating system and the JSON package -/

/-- The state of the path `js.filename`. -/
structure Disk where
  /-- The content of the file, `none` when the path does not exist. -/
  file : Option String
  /-- How many times `os.WriteFile` has been called. -/
  writes : Nat
deriving DecidableEq, Repr

/-- The error of the `os` package for a path that does not exist. -/
def ErrNotExist : Error := .New "file does not exist"

/-- The Go function `os.Stat`, its `FileInfo` result dropped. -/
def os_Stat (d : Disk) : Option Error :=
  match d.file with
  | none => some ErrNotExist
  | some _ => none

/-- The Go function `os.IsNotExist`. -/
def os_IsNotExist (err : Option Error) : Bool :=
  match err with
  | none => false
  | some e => e.Is ErrNotExist

/-- The Go function `os.ReadFile`. -/
def os_ReadFile (d : Disk) : Except Error String :=
  match d.file with
  | none => .error ErrNotExist
  | some data => .ok data

/-- The Go function `os.WriteFile`: creates or truncates the file. -/
def os_WriteFile (d : Disk) (data : String) : Option Error × Disk :=
  (none, { file := some data, writes := d.writes + 1 })

/-- The two functions of `encoding/json` the storage calls, at the type
`[]Schedule`. -/
structure JSON where
  /-- The call `json.MarshalIndent(schedules, "", " ")`. -/
  MarshalIndent : List Schedule → Except Error String
  /-- The call `json.Unmarshal(data, &schedules)`. -/
  Unmarshal : String → Except Error (List Schedule)

/-- What the storage assumes of `encoding/json`. -/
structure JSON.Sound (j : JSON) : Prop where
  /-- A slice of records whose ids are Go ints is serialized without error and
  its serialization decodes to the same records. -/
  roundTrip : ∀ l : List Schedule, (∀ x ∈ l, isInt x.ID) →
    ∃ data, j.MarshalIndent l = .ok data ∧ j.Unmarshal data = .ok l
  /-- Decoding into a Go `int` field only yields Go ints. -/
  decodesInt : ∀ data l, j.Unmarshal data = .ok l → ∀ x ∈ l, isInt x.ID
  /-- The document written by `Initialize` is the empty array. -/
  emptyArray : j.Unmarshal "[]" = .ok []

/-! ## The storage (main.go:127-233) -/

/-- The method `JSONStorage.Initialize` (main.go:127). -/
def Initialize (d : Disk) : Option Error × Disk :=
  if os_IsNotExist (os_Stat d) then
    os_WriteFile d "[]"
  else
    (none, d)

/-- The method `JSONStorage.ReadAll` (main.go:135). -/
def ReadAll (j : JSON) (d : Disk) : Except Error (List Schedule) :=
  match os_ReadFile d with
  | .error err => .error (.Errorf "falha ao ler agendamento: %w" err none)
  | .ok data =>
    match j.Unmarshal data with
    | .error err => .error (.Errorf "f    alha ao serializar agendamento: %w" err none)
    | .ok schedules => .ok schedules

/-- The method `JSONStorage.SaveAll` (main.go:149). -/
def SaveAll (j : JSON) (schedules : List Schedule) (d : Disk) : Option Error × Disk :=
  match j.MarshalIndent schedules with
  | .error err => (some (.Errorf "falha ao serializar agendamentos: %w" err none), d)
  | .ok data =>
    match os_WriteFile d data with
    | (some err, d1) => (some (.Errorf "falha ao criara arquivo: %w" err none), d1)
    | (none, d1) => (none, d1)

/-- The method `JSONStorage.Create` (main.go:162). -/
def Create (j : JSON) (newSchedule : Schedule) (d : Disk) : Option Error × Disk :=
  match ReadAll j d with
  | .error err => (some (.Errorf "falha ao ler agendamento: %w" err none), d)
  | .ok schedules =>
    let newSchedule := { newSchedule with ID := 1 }
    let newSchedule :=
      if h : schedules.length > 0 then
        { newSchedule with ID := wrapInt (schedules[schedules.length - 1].ID + 1) }
      else newSchedule
    let schedules := schedules ++ [newSchedule]
    match SaveAll j schedules d with
    | (some err, d1) => (some (.Errorf "falha ao salvar alterações: %w" err none), d1)
    | (none, d1) => (none, d1)

/-- The loop of `Delete` (main.go:188-195) from index `i` on, `rest` being the
elements of the range still to visit: the pair of `found` and `data` at the
end of the loop. -/
def deleteLoop (scheduleID : Int) (data : List Schedule) :
    Nat → List Schedule → Bool × List Schedule
  | _, [] => (false, data)
  | i, v :: rest =>
    if v.ID = scheduleID then
      (true, data.take i ++ data.drop (i + 1))
    else
      deleteLoop scheduleID data (i + 1) rest

/-- The method `JSONStorage.Delete` (main.go:182). -/
def Delete (j : JSON) (scheduleID : Int) (d : Disk) : Option Error × Disk :=
  match ReadAll j d with
  | .error err => (some (.Errorf "falha ao ler agendamento: %w" err none), d)
  | .ok data =>
    match deleteLoop scheduleID data 0 data with
    | (false, _) => (some (.Errorf "%w: ID %d" ErrScheduleNotFound (some scheduleID)), d)
    | (true, data) =>
      match SaveAll j data d with
      | (some err, d1) => (some (.Errorf "falha ao salvar alterações: %w" err none), d1)
      | (none, d1) => (none, d1)

/-- The loop of `Update` (main.go:214-222) from index `i` on, `rest` being the
elements of the range still to visit: the pair of `found` and `data` at the
end of the loop. -/
def updateLoop (scheduleID : Int) (updatedSchedule : Schedule) (data : List Schedule) :
    Nat → List Schedule → Bool × List Schedule
  | _, [] => (false, data)
  | i, v :: rest =>
    if v.ID = scheduleID then
      (true, data.set i { updatedSchedule with ID := scheduleID })
    else
      updateLoop scheduleID updatedSchedule data (i + 1) rest

/-- The method `JSONStorage.Update` (main.go:208). -/
def Update (j : JSON) (scheduleID : Int) (updatedSchedule : Schedule) (d : Disk) :
    Option Error × Disk :=
  match ReadAll j d with
  | .error err => (some (.Errorf "falha ao ler agendamento: %w" err none), d)
  | .ok data =>
    match updateLoop scheduleID updatedSchedule data 0 data with
    | (false, _) => (some (.Errorf "%w: ID %d" ErrScheduleNotFound (some scheduleID)), d)
    | (true, data) =>
      match SaveAll j data d with
      | (some err, d1) => (some (.Errorf "falha ao salvar alterações: %w" err none), d1)
      | (none, d1) => (none, d1)

/-! ## The JSON text of a list of records

`encoding/json` is not in the repository.  This section models, from section 6
of the spec (a UTF-8 JSON array of objects with the fields `id`, `title`,
`time` and `details`, the last omitted when empty, pretty-printed with an
indentation of one space), the text `SaveAll` writes and the parser `ReadAll`
reads it with.  `specJSON` packs the two as an instance of `JSON`. -/

namespace JSONText

/-- Modelled from the spec: JSON text, for the absent `encoding/json`.  JSON
whitespace. -/
def isWs (c : Char) : Bool := c = ' ' || c = '\n' || c = '\r' || c = '\t'

/-- Modelled from the spec: JSON text, for the absent `encoding/json`.  Drops
leading whitespace. -/
def skipWs : List Char → List Char
  | [] => []
  | c :: cs => if isWs c then skipWs cs else c :: cs

/-- Modelled from the spec: JSON text, for the absent `encoding/json`.  The
character of a decimal digit. -/
def digitChar (d : Nat) : Char := Char.ofNat (48 + d)

/-- Modelled from the spec: JSON text, for the absent `encoding/json`.  The
value of a decimal digit character. -/
def digitVal (c : Char) : Option Nat :=
  if 48 ≤ c.toNat ∧ c.toNat ≤ 57 then some (c.toNat - 48) else none

/-- Modelled from the spec: JSON text, for the absent `encoding/json`.  The
decimal digits of `n`, most significant first, put in front of `acc`; `fuel`
bounds the number of digits. -/
def encNatAux : Nat → Nat → List Char → List Char
  | 0, _, acc => acc
  | fuel + 1, n, acc =>
    if n < 10 then digitChar n :: acc
    else encNatAux fuel (n / 10) (digitChar (n % 10) :: acc)

/-- Modelled from the spec: JSON text, for the absent `encoding/json`.  A
natural number in decimal, most significant digit first. -/
def encNat (n : Nat) : List Char := encNatAux (n + 1) n []

/-- Modelled from the spec: JSON text, for the absent `encoding/json`.  Reads
the digits that follow, continuing the value `acc`. -/
def decDigits : Nat → List Char → Nat × List Char
  | acc, [] => (acc, [])
  | acc, c :: cs =>
    match digitVal c with
    | some v => decDigits (10 * acc + v) cs
    | none => (acc, c :: cs)

/-- Modelled from the spec: JSON text, for the absent `encoding/json`.  Reads a
natural number: `0`, or a non-zero digit and the digits after. -/
def decNat : List Char → Option (Nat × List Char)
  | [] => none
  | c :: cs =>
    match digitVal c with
    | none => none
    | some v => if v = 0 then some (0, cs) else some (decDigits v cs)

/-- Modelled from the spec: JSON text, for the absent `encoding/json`.  An
integer in decimal, with a minus sign when negative. -/
def encInt (i : Int) : List Char :=
  if i < 0 then '-' :: encNat i.natAbs else encNat i.natAbs

/-- Modelled from the spec: JSON text, for the absent `encoding/json`.  Reads an
integer; only the values of a Go `int` are accepted. -/
def decInt : List Char → Option (Int × List Char)
  | [] => none
  | c :: cs =>
    if c = '-' then
      match decNat cs with
      | none => none
      | some (n, rest) => if isInt (-(n : Int)) then some (-(n : Int), rest) else none
    else
      match decNat (c :: cs) with
      | none => none
      | some (n, rest) => if isInt (n : Int) then some ((n : Int), rest) else none

/-- Modelled from the spec: JSON text, for the absent `encoding/json`.  The
input does not go on with a digit. -/
def NoDigit : List Char → Prop
  | [] => True
  | c :: _ => digitVal c = none

/-- Modelled from the spec: JSON text, for the absent `encoding/json`.  The
character of a hexadecimal digit, in lower case. -/
def hexDigit (n : Nat) : Char := if n < 10 then Char.ofNat (48 + n) else Char.ofNat (87 + n)

/-- Modelled from the spec: JSON text, for the absent `encoding/json`.  The
value of a hexadecimal digit character. -/
def hexVal (c : Char) : Option Nat :=
  if 48 ≤ c.toNat ∧ c.toNat ≤ 57 then some (c.toNat - 48)
  else if 97 ≤ c.toNat ∧ c.toNat ≤ 102 then some (c.toNat - 87)
  else if 65 ≤ c.toNat ∧ c.toNat ≤ 70 then some (c.toNat - 55)
  else none

/-- Modelled from the spec: JSON text, for the absent `encoding/json`.  Whether
a character other than the quote and the backslash is written as an escape:
the control characters, `<`, `>`, `&`, U+2028 and U+2029. -/
def isEscaped (c : Char) : Bool :=
  c.toNat < 32 || c.toNat = 60 || c.toNat = 62 || c.toNat = 38 || c.toNat = 8232 ||
    c.toNat = 8233

/-- Modelled from the spec: JSON text, for the absent `encoding/json`.  The text
of one character inside a JSON string. -/
def escapeChar (c : Char) : List Char :=
  if c = '"' then ['\\', '"']
  else if c = '\\' then ['\\', '\\']
  else if c = '\n' then ['\\', 'n']
  else if c = '\r' then ['\\', 'r']
  else if c = '\t' then ['\\', 't']
  else if isEscaped c then
    ['\\', 'u', hexDigit (c.toNat / 4096 % 16), hexDigit (c.toNat / 256 % 16),
      hexDigit (c.toNat / 16 % 16), hexDigit (c.toNat % 16)]
  else [c]

/-- Modelled from the spec: JSON text, for the absent `encoding/json`.  The text
of the characters of a JSON string. -/
def escape : List Char → List Char
  | [] => []
  | c :: cs => escapeChar c ++ escape cs

/-- Modelled from the spec: JSON text, for the absent `encoding/json`.  A JSON
string: the escaped characters between double quotes. -/
def encString (s : String) : List Char := '"' :: (escape s.data ++ ['"'])

/-- Modelled from the spec: JSON text, for the absent `encoding/json`.  The
character a one-letter escape stands for. -/
def unescape (c : Char) : Option Char :=
  if c = '"' then some '"'
  else if c = '\\' then some '\\'
  else if c = '/' then some '/'
  else if c = 'b' then some (Char.ofNat 8)
  else if c = 'f' then some (Char.ofNat 12)
  else if c = 'n' then some '\n'
  else if c = 'r' then some '\r'
  else if c = 't' then some '\t'
  else none

/-- Modelled from the spec: JSON text, for the absent `encoding/json`.  The
character of a `\u` escape; a surrogate is read as U+FFFD. -/
def ofCode (n : Nat) : Char :=
  if 55296 ≤ n ∧ n ≤ 57343 then Char.ofNat 65533 else Char.ofNat n

/-- Modelled from the spec: JSON text, for the absent `encoding/json`.  Where
the reader of a string stands: in plain text, after a backslash, or in a
`\u` escape with `left` digits to read and `value` read so far. -/
inductive StrState where
  | normal
  | escaped
  | hex (left value : Nat)

/-- Modelled from the spec: JSON text, for the absent `encoding/json`.  Reads
the characters of a string up to the closing quote; `acc` holds the
characters read so far, last first. -/
def decChars : StrState → List Char → List Char → Option (List Char × List Char)
  | _, _, [] => none
  | .normal, acc, c :: cs =>
    if c = '"' then some (acc.reverse, cs)
    else if c = '\\' then decChars .escaped acc cs
    else if c.toNat < 32 then none
    else decChars .normal (c :: acc) cs
  | .escaped, acc, c :: cs =>
    if c = 'u' then decChars (.hex 4 0) acc cs
    else
      match unescape c with
      | some x => decChars .normal (x :: acc) cs
      | none => none
  | .hex left value, acc, c :: cs =>
    match hexVal c with
    | none => none
    | some h =>
      if left ≤ 1 then decChars .normal (ofCode (16 * value + h) :: acc) cs
      else decChars (.hex (left - 1) (16 * value + h)) acc cs

/-- Modelled from the spec: JSON text, for the absent `encoding/json`.  Reads a
JSON string. -/
def decString : List Char → Option (String × List Char)
  | [] => none
  | c :: cs =>
    if c = '"' then
      match decChars .normal [] cs with
      | some (s, rest) => some (String.mk s, rest)
      | none => none
    else none

/-- Modelled from the spec: JSON text, for the absent `encoding/json`.  The
members of the object of a record, each on a line of its own; the member
`details` is left out when the details are empty. -/
def encFields (x : Schedule) : List Char :=
  ['\n', ' ', ' ', '"', 'i', 'd', '"', ':', ' '] ++ (encInt x.ID ++
  ([',', '\n', ' ', ' ', '"', 't', 'i', 't', 'l', 'e', '"', ':', ' '] ++ (encString x.Title ++
  ([',', '\n', ' ', ' ', '"', 't', 'i', 'm', 'e', '"', ':', ' '] ++ (encString x.Time ++
  (if x.Details = "" then []
   else [',', '\n', ' ', ' ', '"', 'd', 'e', 't', 'a', 'i', 'l', 's', '"', ':', ' '] ++
     encString x.Details))))))

/-- Modelled from the spec: JSON text, for the absent `encoding/json`.  The
object of a record, indented by one space. -/
def encObject (x : Schedule) : List Char :=
  ['\n', ' ', '{'] ++ (encFields x ++ ['\n', ' ', '}'])

/-- Modelled from the spec: JSON text, for the absent `encoding/json`.  The
objects after the first, each after a comma, and the closing bracket. -/
def encTail : List Schedule → List Char
  | [] => ['\n', ']']
  | x :: xs => ',' :: (encObject x ++ encTail xs)

/-- Modelled from the spec: the serializer of `encoding/json` behind
`json.MarshalIndent(schedules, "", " ")`, which is not in the repository.  A
JSON array of objects with the members `id`, `title`, `time` and `details`,
the last left out when empty, pretty-printed with an indentation of one
space; the empty list is `[]`. -/
def marshal : List Schedule → String
  | [] => String.mk ['[', ']']
  | x :: xs => String.mk ('[' :: (encObject x ++ encTail xs))

/-- Modelled from the spec: JSON text, for the absent `encoding/json`.  The
record with every field at its zero value. -/
def zero : Schedule := ⟨0, "", "", ""⟩

/-- Modelled from the spec: JSON text, for the absent `encoding/json`.  Reads
the value of the member `key` into the record `acc`. -/
def decField (acc : Schedule) (key : String) (cs : List Char) : Option (Schedule × List Char) :=
  if key = "id" then
    match decInt cs with
    | some (i, rest) => some ({ acc with ID := i }, rest)
    | none => none
  else if key = "title" then
    match decString cs with
    | some (s, rest) => some ({ acc with Title := s }, rest)
    | none => none
  else if key = "time" then
    match decString cs with
    | some (s, rest) => some ({ acc with Time := s }, rest)
    | none => none
  else if key = "details" then
    match decString cs with
    | some (s, rest) => some ({ acc with Details := s }, rest)
    | none => none
  else none

/-- Modelled from the spec: JSON text, for the absent `encoding/json`.  Reads
the members of an object up to its closing brace. -/
def decMembers : Nat → Schedule → List Char → Option (Schedule × List Char)
  | 0, _, _ => none
  | fuel + 1, acc, cs =>
    match decString (skipWs cs) with
    | none => none
    | some (key, cs1) =>
      match skipWs cs1 with
      | [] => none
      | c :: cs2 =>
        if c = ':' then
          match decField acc key (skipWs cs2) with
          | none => none
          | some (acc1, cs3) =>
            match skipWs cs3 with
            | [] => none
            | c1 :: cs4 =>
              if c1 = ',' then decMembers fuel acc1 cs4
              else if c1 = '}' then some (acc1, cs4)
              else none
        else none

/-- Modelled from the spec: JSON text, for the absent `encoding/json`.  Reads an
object, from after its opening brace. -/
def decObject (cs : List Char) : Option (Schedule × List Char) :=
  match skipWs cs with
  | [] => none
  | c :: cs1 => if c = '}' then some (zero, cs1) else decMembers cs.length zero cs

/-- Modelled from the spec: JSON text, for the absent `encoding/json`.  Reads
the objects of an array up to its closing bracket, after which only
whitespace may follow. -/
def decElements : Nat → List Char → Option (List Schedule)
  | 0, _ => none
  | fuel + 1, cs =>
    match skipWs cs with
    | [] => none
    | c :: cs1 =>
      if c = '{' then
        match decObject cs1 with
        | none => none
        | some (x, cs2) =>
          match skipWs cs2 with
          | [] => none
          | c1 :: cs3 =>
            if c1 = ',' then
              match decElements fuel cs3 with
              | some xs => some (x :: xs)
              | none => none
            else if c1 = ']' then (if skipWs cs3 = [] then some [x] else none)
            else none
      else none

/-- Modelled from the spec: the parser of `encoding/json` behind
`json.Unmarshal(data, &schedules)`, which is not in the repository.  It reads
`null` and the JSON arrays of objects whose members are among `id` (an
integer that fits a Go `int`), `title`, `time` and `details` (strings), in any
order and with any whitespace between the tokens; a member that is absent
keeps its zero value.  Anything else is an error. -/
def unmarshal (data : String) : Except Error (List Schedule) :=
  match skipWs data.data with
  | [] => .error (.New "unexpected end of JSON input")
  | c :: cs =>
    if c = '[' then
      match skipWs cs with
      | [] => .error (.New "unexpected end of JSON input")
      | c1 :: cs1 =>
        if c1 = ']' then
          (if skipWs cs1 = [] then .ok [] else .error (.New "invalid character"))
        else
          match decElements cs.length cs with
          | some l => .ok l
          | none => .error (.New "invalid character")
    else if c :: cs = ['n', 'u', 'l', 'l'] then .ok []
    else .error (.New "invalid character")

end JSONText

/-- Modelled from the spec: the package `encoding/json`, which is not in the
repository, as the serializer `JSONText.marshal` and the parser
`JSONText.unmarshal` of the file format of section 6 of the spec. -/
def specJSON : JSON where
  MarshalIndent := fun l => .ok (JSONText.marshal l)
  Unmarshal := JSONText.unmarshal

/-- The disk whose file holds the text of `l` and has never been written. -/
def diskOf (l : List Schedule) : Disk := { file := some (JSONText.marshal l), writes := 0 }

/-! ## Runs of calls -/

/-- One call of the storage API. -/
inductive Call where
  | create (schedule : Schedule)
  | update (id : Int) (schedule : Schedule)
  | delete (id : Int)
deriving DecidableEq, Repr

/-- Performs one call. -/
def Call.exec (j : JSON) : Call → Disk → Option Error × Disk
  | .create s, d => Create j s d
  | .update id s, d => Update j id s d
  | .delete id, d => Delete j id d

/-- Whether the call is a `Create`. -/
def Call.isCreate : Call → Bool
  | .create _ => true
  | _ => false

/-- Performs the calls in order, each on the disk the previous one left: the
errors returned, in order, and the final disk. -/
def run (j : JSON) : List Call → Disk → List (Option Error) × Disk
  | [], d => ([], d)
  | c :: cs, d =>
    let r := c.exec j d
    let rs := run j cs r.2
    (r.1 :: rs.1, rs.2)

/-- The largest id of a non-empty list of records, `none` for the empty list. -/
def maxID : List Schedule → Option Int
  | [] => none
  | x :: xs =>
    match maxID xs with
    | none => some x.ID
    | some m => some (max x.ID m)

/-- The id `Create` computes for a store holding `l` (main.go:168-171), as a
function of the last record. -/
def nextID (l : List Schedule) : Int :=
  match l.getLast? with
  | none => 1
  | some last => wrapInt (last.ID + 1)

/-- The records `rs` with the ids `n`, `n + 1`, ... in place of their own. -/
def numbered (n : Int) : List Schedule → List Schedule
  | [] => []
  | r :: rs => ⟨n, r.Title, r.Time, r.Details⟩ :: numbered (n + 1) rs

/-- Ids strictly increasing along the list, all between 1 and `n`. -/
def Ordered (n : Int) (l : List Schedule) : Prop :=
  0 ≤ n ∧ (l.map Schedule.ID).Pairwise (· < ·) ∧ ∀ i ∈ l.map Schedule.ID, 1 ≤ i ∧ i ≤ n

/-! ## The JSON text reads back -/

namespace JSONText

lemma digitVal_digitChar {d : Nat} (h : d < 10) : digitVal (digitChar d) = some d := by
  interval_cases d <;> decide

lemma decDigits_map (ds : List Nat) (hds : ∀ d ∈ ds, d < 10) (acc : Nat) (rest : List Char)
    (hrest : NoDigit rest) :
    decDigits acc (ds.map digitChar ++ rest) =
      (ds.foldl (fun a d => 10 * a + d) acc, rest) := by
  induction ds generalizing acc with
  | nil =>
    cases rest with
    | nil => rfl
    | cons c cs =>
      simp only [NoDigit] at hrest
      simp [decDigits, hrest]
  | cons d ds ih =>
    have hd := digitVal_digitChar (hds d (by simp))
    simp only [List.map_cons, List.cons_append, decDigits, hd, List.foldl_cons]
    exact ih (fun e he => hds e (by simp [he])) _

lemma foldl_digits (L : List Nat) :
    L.reverse.foldl (fun a d => 10 * a + d) 0 = Nat.ofDigits 10 L := by
  rw [List.foldl_reverse, Nat.ofDigits_eq_foldr]
  congr 1
  funext x y
  simp [add_comm]

lemma encNatAux_eq (fuel n : Nat) (hn : n ≠ 0) (hf : n < fuel) (acc : List Char) :
    encNatAux fuel n acc = (Nat.digits 10 n).reverse.map digitChar ++ acc := by
  induction fuel generalizing n acc with
  | zero => omega
  | succ f ih =>
    by_cases h : n < 10
    · have : Nat.digits 10 n = [n] := Nat.digits_of_lt 10 n hn h
      simp [encNatAux, h, this]
    · have hd : Nat.digits 10 n = (n % 10) :: Nat.digits 10 (n / 10) :=
        Nat.digits_def' (by norm_num) (by omega)
      simp only [encNatAux, h, if_false]
      rw [ih (n / 10) (by omega) (by omega), hd]
      simp

lemma encNat_zero : encNat 0 = ['0'] := by decide

lemma encNat_eq {n : Nat} (hn : n ≠ 0) :
    encNat n = (Nat.digits 10 n).reverse.map digitChar := by
  simp [encNat, encNatAux_eq (n + 1) n hn (by omega)]

lemma decNat_encNat (n : Nat) (rest : List Char) (hrest : NoDigit rest) :
    decNat (encNat n ++ rest) = some (n, rest) := by
  by_cases hn : n = 0
  · subst n
    rw [encNat_zero]
    simp [decNat, digitVal]
  · rw [encNat_eq hn]
    have hne : Nat.digits 10 n ≠ [] := Nat.digits_ne_nil_iff_ne_zero.2 hn
    have hlast : (Nat.digits 10 n).getLast hne ≠ 0 := Nat.getLast_digit_ne_zero 10 hn
    have hlt : ∀ d ∈ Nat.digits 10 n, d < 10 := fun d hd => Nat.digits_lt_base (by norm_num) hd
    have hval := foldl_digits (Nat.digits 10 n)
    rw [Nat.ofDigits_digits] at hval
    obtain ⟨init, d0, hsplit⟩ : ∃ init d0, Nat.digits 10 n = init ++ [d0] :=
      ⟨_, _, (List.dropLast_append_getLast hne).symm⟩
    have hd0 : d0 ≠ 0 := by
      have : (Nat.digits 10 n).getLast hne = d0 := by simp [hsplit]
      rw [this] at hlast
      exact hlast
    rw [hsplit] at hlt hval ⊢
    simp only [List.reverse_append, List.reverse_cons, List.reverse_nil, List.nil_append,
      List.singleton_append, List.map_cons, List.cons_append, List.foldl_cons] at hval ⊢
    have h0 := digitVal_digitChar (hlt d0 (by simp))
    simp only [decNat, h0, hd0, if_false]
    rw [decDigits_map init.reverse (fun d hd => hlt d (by simp [List.mem_reverse.1 hd])) _ _ hrest]
    simp at hval
    simp [hval]

lemma decInt_encInt (i : Int) (hi : isInt i) (rest : List Char) (hrest : NoDigit rest) :
    decInt (encInt i ++ rest) = some (i, rest) := by
  unfold encInt
  split
  · rename_i hneg
    have h : -((i.natAbs : Nat) : Int) = i := by omega
    simp only [List.cons_append, decInt, if_true, decNat_encNat _ _ hrest, h, hi]
  · rename_i hpos
    have h : ((i.natAbs : Nat) : Int) = i := by omega
    have hne : ∀ cs, encNat i.natAbs ++ rest = cs → decInt cs = some (i, rest) := by
      intro cs hcs
      have hdec := decNat_encNat i.natAbs rest hrest
      rw [hcs] at hdec
      cases cs with
      | nil => simp [decNat] at hdec
      | cons c cs =>
        have hc : c ≠ '-' := by
          rintro rfl
          simp [decNat, digitVal] at hdec
        simp only [decInt, hc, if_false, hdec, h, hi, if_true]
    exact hne _ rfl

lemma hexVal_hexDigit {k : Nat} (h : k < 16) : hexVal (hexDigit k) = some k := by
  interval_cases k <;> decide

lemma ofCode_hex (c : Char) (h : isEscaped c = true) :
    ofCode (16 * (16 * (16 * (c.toNat / 4096 % 16) + c.toNat / 256 % 16) +
      c.toNat / 16 % 16) + c.toNat % 16) = c := by
  have hc : c.toNat < 32 ∨ c.toNat = 60 ∨ c.toNat = 62 ∨ c.toNat = 38 ∨ c.toNat = 8232 ∨
      c.toNat = 8233 := by
    simpa [isEscaped, or_assoc] using h
  have h1 : 16 * (16 * (16 * (c.toNat / 4096 % 16) + c.toNat / 256 % 16) +
      c.toNat / 16 % 16) + c.toNat % 16 = c.toNat := by omega
  rw [h1]
  have h2 : ¬ (55296 ≤ c.toNat ∧ c.toNat ≤ 57343) := by omega
  simp only [ofCode, h2, if_false]
  exact Char.ofNat_toNat c

lemma decChars_escapeChar (c : Char) (acc rest : List Char) :
    decChars .normal acc (escapeChar c ++ rest) = decChars .normal (c :: acc) rest := by
  unfold escapeChar
  split_ifs with h1 h2 h3 h4 h5 h6
  · subst h1; simp [decChars, unescape]
  · subst h2; simp [decChars, unescape]
  · subst h3; simp [decChars, unescape]
  · subst h4; simp [decChars, unescape]
  · subst h5; simp [decChars, unescape]
  · have hq : ('\\' : Char) ≠ '"' := by decide
    have ha := hexVal_hexDigit (k := c.toNat / 4096 % 16) (by omega)
    have hb := hexVal_hexDigit (k := c.toNat / 256 % 16) (by omega)
    have hc := hexVal_hexDigit (k := c.toNat / 16 % 16) (by omega)
    have hd := hexVal_hexDigit (k := c.toNat % 16) (by omega)
    simp only [List.cons_append, List.nil_append, decChars, hq, if_false, if_true, ha, hb, hc,
      hd]
    simp [ofCode_hex c h6]
  · have h7 : ¬ c.toNat < 32 := by
      intro h
      simp [isEscaped, h] at h6
    simp [decChars, h1, h2, h7]

lemma decChars_escape (s acc rest : List Char) :
    decChars .normal acc (escape s ++ '"' :: rest) = some (acc.reverse ++ s, rest) := by
  induction s generalizing acc with
  | nil => simp [escape, decChars]
  | cons c s ih =>
    simp only [escape, List.append_assoc]
    rw [decChars_escapeChar, ih]
    simp

lemma decString_encString (s : String) (rest : List Char) :
    decString (encString s ++ rest) = some (s, rest) := by
  simp [encString, decString, decChars_escape]

lemma skipWs_nil : skipWs [] = [] := rfl

lemma skipWs_space (cs : List Char) : skipWs (' ' :: cs) = skipWs cs := by
  simp [skipWs, isWs]

lemma skipWs_quote (cs : List Char) : skipWs ('"' :: cs) = '"' :: cs := by
  simp [skipWs, isWs]

lemma skipWs_encString (s : String) (rest : List Char) :
    skipWs (encString s ++ rest) = encString s ++ rest := by
  simp [encString, skipWs, isWs]

lemma isWs_of_digitVal {c : Char} {v : Nat} (h : digitVal c = some v) : isWs c = false := by
  unfold digitVal at h
  split at h
  · rename_i hc
    have h1 : c ≠ ' ' := by rintro rfl; revert hc; decide
    have h2 : c ≠ '\n' := by rintro rfl; revert hc; decide
    have h3 : c ≠ '\r' := by rintro rfl; revert hc; decide
    have h4 : c ≠ '\t' := by rintro rfl; revert hc; decide
    simp [isWs, h1, h2, h3, h4]
  · simp at h

lemma skipWs_of_decInt {cs : List Char} {r : Int × List Char} (h : decInt cs = some r) :
    skipWs cs = cs := by
  cases cs with
  | nil => rfl
  | cons c cs =>
    by_cases hc : c = '-'
    · subst hc
      simp [skipWs, isWs]
    · simp only [decInt, hc, if_false] at h
      split at h
      · simp at h
      · rename_i n rest hdec
        simp only [decNat] at hdec
        split at hdec
        · simp at hdec
        · rename_i v hv
          simp [skipWs, isWs_of_digitVal hv]

lemma skipWs_encInt (i : Int) (hi : isInt i) (rest : List Char) (hrest : NoDigit rest) :
    skipWs (encInt i ++ rest) = encInt i ++ rest :=
  skipWs_of_decInt (decInt_encInt i hi rest hrest)

lemma noDigit_comma (cs : List Char) : NoDigit (',' :: cs) := by
  simp only [NoDigit]
  decide

lemma decString_id (rest : List Char) :
    decString ('"' :: 'i' :: 'd' :: '"' :: rest) = some ("id", rest) :=
  decString_encString "id" rest

lemma decString_title (rest : List Char) :
    decString ('"' :: 't' :: 'i' :: 't' :: 'l' :: 'e' :: '"' :: rest) = some ("title", rest) :=
  decString_encString "title" rest

lemma decString_time (rest : List Char) :
    decString ('"' :: 't' :: 'i' :: 'm' :: 'e' :: '"' :: rest) = some ("time", rest) :=
  decString_encString "time" rest

lemma decString_details (rest : List Char) :
    decString ('"' :: 'd' :: 'e' :: 't' :: 'a' :: 'i' :: 'l' :: 's' :: '"' :: rest) =
      some ("details", rest) :=
  decString_encString "details" rest

lemma decMembers_id (f : Nat) (acc : Schedule) (i : Int) (hi : isInt i) (tail : List Char) :
    decMembers (f + 1) acc
        ('\n' :: ' ' :: ' ' :: '"' :: 'i' :: 'd' :: '"' :: ':' :: ' ' :: (encInt i ++ ',' :: tail)) =
      decMembers f { acc with ID := i } tail := by
  have h1 : skipWs ('\n' :: ' ' :: ' ' :: '"' :: 'i' :: 'd' :: '"' :: ':' :: ' ' ::
      (encInt i ++ ',' :: tail)) =
      '"' :: 'i' :: 'd' :: '"' :: ':' :: ' ' :: (encInt i ++ ',' :: tail) := by
    simp [skipWs, isWs]
  have h2 : skipWs (':' :: ' ' :: (encInt i ++ ',' :: tail)) =
      ':' :: ' ' :: (encInt i ++ ',' :: tail) := by
    simp [skipWs, isWs]
  have h3 : skipWs (' ' :: (encInt i ++ ',' :: tail)) = encInt i ++ ',' :: tail := by
    have := skipWs_encInt i hi (',' :: tail) (noDigit_comma tail)
    simpa [skipWs, isWs] using this
  have h4 : skipWs (',' :: tail) = ',' :: tail := by
    simp [skipWs, isWs]
  rw [decMembers, h1, decString_id]
  simp only [h2, if_true, h3, decField, decInt_encInt i hi _ (noDigit_comma tail), h4]

lemma decMembers_str_cont (f : Nat) (acc : Schedule) (key : String) (kt : List Char)
    (upd : Schedule → String → Schedule)
    (hk : ∀ rest, decString (kt ++ rest) = some (key, rest))
    (hq : ∀ rest, skipWs (kt ++ rest) = kt ++ rest)
    (hfield : ∀ a cs, decField a key cs =
      match decString cs with
      | some (s, rest) => some (upd a s, rest)
      | none => none)
    (s : String) (tail : List Char) :
    decMembers (f + 1) acc
        ('\n' :: ' ' :: ' ' :: (kt ++ ':' :: ' ' :: (encString s ++ ',' :: tail))) =
      decMembers f (upd acc s) tail := by
  have h1 : skipWs ('\n' :: ' ' :: ' ' :: (kt ++ ':' :: ' ' :: (encString s ++ ',' :: tail))) =
      kt ++ ':' :: ' ' :: (encString s ++ ',' :: tail) := by
    simp [skipWs, isWs, hq]
  have h2 : skipWs (':' :: ' ' :: (encString s ++ ',' :: tail)) =
      ':' :: ' ' :: (encString s ++ ',' :: tail) := by
    simp [skipWs, isWs]
  have h3 : skipWs (' ' :: (encString s ++ ',' :: tail)) = encString s ++ ',' :: tail := by
    rw [skipWs_space, skipWs_encString]
  have h4 : skipWs (',' :: tail) = ',' :: tail := by
    simp [skipWs, isWs]
  rw [decMembers, h1, hk]
  simp only [h2, if_true, h3, hfield, decString_encString, h4]

lemma decMembers_str_last (f : Nat) (acc : Schedule) (key : String) (kt : List Char)
    (upd : Schedule → String → Schedule)
    (hk : ∀ rest, decString (kt ++ rest) = some (key, rest))
    (hq : ∀ rest, skipWs (kt ++ rest) = kt ++ rest)
    (hfield : ∀ a cs, decField a key cs =
      match decString cs with
      | some (s, rest) => some (upd a s, rest)
      | none => none)
    (s : String) (rest : List Char) :
    decMembers (f + 1) acc
        ('\n' :: ' ' :: ' ' :: (kt ++ ':' :: ' ' :: (encString s ++ '\n' :: ' ' :: '}' :: rest))) =
      some (upd acc s, rest) := by
  have h1 : skipWs ('\n' :: ' ' :: ' ' ::
      (kt ++ ':' :: ' ' :: (encString s ++ '\n' :: ' ' :: '}' :: rest))) =
      kt ++ ':' :: ' ' :: (encString s ++ '\n' :: ' ' :: '}' :: rest) := by
    simp [skipWs, isWs, hq]
  have h2 : skipWs (':' :: ' ' :: (encString s ++ '\n' :: ' ' :: '}' :: rest)) =
      ':' :: ' ' :: (encString s ++ '\n' :: ' ' :: '}' :: rest) := by
    simp [skipWs, isWs]
  have h3 : skipWs (' ' :: (encString s ++ '\n' :: ' ' :: '}' :: rest)) =
      encString s ++ '\n' :: ' ' :: '}' :: rest := by
    rw [skipWs_space, skipWs_encString]
  have h4 : skipWs ('\n' :: ' ' :: '}' :: rest) = '}' :: rest := by
    simp [skipWs, isWs]
  have h5 : ('}' : Char) ≠ ',' := by decide
  rw [decMembers, h1, hk]
  simp only [h2, if_true, h3, hfield, decString_encString, h4, h5, if_false]

lemma decMembers_encFields (x : Schedule) (hx : isInt x.ID) (fuel : Nat) (hf : 4 ≤ fuel)
    (rest : List Char) :
    decMembers fuel zero (encFields x ++ '\n' :: ' ' :: '}' :: rest) = some (x, rest) := by
  obtain ⟨f, rfl⟩ : ∃ f, fuel = f + 4 := ⟨fuel - 4, by omega⟩
  obtain ⟨i, t, m, d⟩ := x
  have kTitle := decMembers_str_cont (f + 2) { zero with ID := i } "title"
    ['"', 't', 'i', 't', 'l', 'e', '"'] (fun a s => { a with Title := s })
    (fun rest => decString_title rest) (fun rest => skipWs_quote _)
    (fun a cs => by simp [decField]) t
  by_cases hd : d = ""
  · subst hd
    have kTime := decMembers_str_last (f + 1) { zero with ID := i, Title := t } "time"
      ['"', 't', 'i', 'm', 'e', '"'] (fun a s => { a with Time := s })
      (fun rest => decString_time rest) (fun rest => skipWs_quote _)
      (fun a cs => by simp [decField]) m rest
    simp only [encFields, if_true, List.cons_append, List.nil_append, List.append_assoc,
      List.append_nil] at kTitle kTime ⊢
    rw [decMembers_id (f + 3) zero i hx, kTitle, kTime]
    rfl
  · have kTime := decMembers_str_cont (f + 1) { zero with ID := i, Title := t } "time"
      ['"', 't', 'i', 'm', 'e', '"'] (fun a s => { a with Time := s })
      (fun rest => decString_time rest) (fun rest => skipWs_quote _)
      (fun a cs => by simp [decField]) m
    have kDetails := decMembers_str_last f { zero with ID := i, Title := t, Time := m } "details"
      ['"', 'd', 'e', 't', 'a', 'i', 'l', 's', '"'] (fun a s => { a with Details := s })
      (fun rest => decString_details rest) (fun rest => skipWs_quote _)
      (fun a cs => by simp [decField]) d rest
    simp only [encFields, hd, if_false, List.cons_append, List.nil_append, List.append_assoc,
      List.append_nil] at kTitle kTime kDetails ⊢
    rw [decMembers_id (f + 3) zero i hx, kTitle, kTime, kDetails]

lemma length_encFields (x : Schedule) : 4 ≤ (encFields x).length := by
  simp only [encFields, List.length_append, List.length_cons]
  omega

lemma decObject_encFields (x : Schedule) (hx : isInt x.ID) (rest : List Char) :
    decObject (encFields x ++ '\n' :: ' ' :: '}' :: rest) = some (x, rest) := by
  have h1 : ∃ tail, skipWs (encFields x ++ '\n' :: ' ' :: '}' :: rest) = '"' :: tail := by
    simp [encFields, skipWs, isWs]
  obtain ⟨tail, h1⟩ := h1
  have h2 : ('"' : Char) ≠ '}' := by decide
  have h3 := length_encFields x
  simp only [decObject, h1, h2, if_false]
  exact decMembers_encFields x hx _ (by simp; omega) rest

lemma decElements_enc (x : Schedule) (xs : List Schedule) (hx : isInt x.ID)
    (hxs : ∀ y ∈ xs, isInt y.ID) (fuel : Nat) (hf : xs.length + 1 ≤ fuel) :
    decElements fuel (encObject x ++ encTail xs) = some (x :: xs) := by
  induction xs generalizing x fuel with
  | nil =>
    obtain ⟨f, rfl⟩ : ∃ f, fuel = f + 1 := ⟨fuel - 1, by omega⟩
    have h1 : skipWs (encObject x ++ encTail []) =
        '{' :: (encFields x ++ '\n' :: ' ' :: '}' :: encTail []) := by
      simp [encObject, skipWs, isWs]
    have h2 : skipWs (encTail []) = [']'] := by
      simp [encTail, skipWs, isWs]
    have h3 : (']' : Char) ≠ ',' := by decide
    rw [decElements, h1]
    simp only [if_true, decObject_encFields x hx, h2, h3, if_false, skipWs_nil]
  | cons y ys ih =>
    obtain ⟨f, rfl⟩ : ∃ f, fuel = f + 1 := ⟨fuel - 1, by omega⟩
    have h1 : skipWs (encObject x ++ encTail (y :: ys)) =
        '{' :: (encFields x ++ '\n' :: ' ' :: '}' :: encTail (y :: ys)) := by
      simp [encObject, skipWs, isWs]
    have h2 : skipWs (encTail (y :: ys)) = ',' :: (encObject y ++ encTail ys) := by
      simp [encTail, skipWs, isWs]
    have h4 := ih y (hxs y (by simp)) (fun z hz => hxs z (by simp [hz])) f
      (by simp at hf; omega)
    rw [decElements, h1]
    simp only [if_true, decObject_encFields x hx, h2, h4]

lemma length_encTail (xs : List Schedule) : xs.length + 1 ≤ (encTail xs).length := by
  induction xs with
  | nil => simp [encTail]
  | cons x xs ih => simp [encTail]; omega

lemma unmarshal_marshal (l : List Schedule) (hl : ∀ x ∈ l, isInt x.ID) :
    unmarshal (marshal l) = .ok l := by
  cases l with
  | nil => simp [unmarshal, marshal, skipWs, isWs]
  | cons x xs =>
    have h1 : skipWs ('[' :: (encObject x ++ encTail xs)) = '[' :: (encObject x ++ encTail xs) := by
      simp [skipWs, isWs]
    have h2 : skipWs (encObject x ++ encTail xs) =
        '{' :: (encFields x ++ '\n' :: ' ' :: '}' :: encTail xs) := by
      simp [encObject, skipWs, isWs]
    have h3 : ('{' : Char) ≠ ']' := by decide
    have h4 := decElements_enc x xs (hl x (by simp)) (fun y hy => hl y (by simp [hy]))
      (encObject x ++ encTail xs).length (by have := length_encTail xs; simp; omega)
    simp only [unmarshal, marshal, h1, if_true, h2, h3, if_false, h4]

lemma unmarshal_empty : unmarshal "[]" = .ok [] := unmarshal_marshal [] (by simp)

lemma decInt_isInt {cs : List Char} {i : Int} {rest : List Char}
    (h : decInt cs = some (i, rest)) : isInt i := by
  cases cs with
  | nil => simp [decInt] at h
  | cons c cs =>
    simp only [decInt] at h
    split_ifs at h
    · split at h
      · simp at h
      · split_ifs at h
        simp at h
        obtain ⟨rfl, _⟩ := h
        assumption
    · split at h
      · simp at h
      · split_ifs at h
        simp at h
        obtain ⟨rfl, _⟩ := h
        assumption

lemma decField_isInt {acc a : Schedule} {key : String} {cs rest : List Char}
    (hacc : isInt acc.ID) (h : decField acc key cs = some (a, rest)) : isInt a.ID := by
  unfold decField at h
  split_ifs at h
  · split at h
    · rename_i i r hi
      simp at h
      obtain ⟨rfl, _⟩ := h
      exact decInt_isInt hi
    · simp at h
  all_goals
    split at h
    · simp at h
      obtain ⟨rfl, _⟩ := h
      exact hacc
    · simp at h

lemma decMembers_isInt (fuel : Nat) {acc a : Schedule} {cs rest : List Char}
    (hacc : isInt acc.ID) (h : decMembers fuel acc cs = some (a, rest)) : isInt a.ID := by
  induction fuel generalizing acc cs with
  | zero => simp [decMembers] at h
  | succ f ih =>
    simp only [decMembers] at h
    split at h
    · simp at h
    · split at h
      · simp at h
      · split_ifs at h
        · split at h
          · simp at h
          · rename_i acc1 cs3 hfield
            have hacc1 := decField_isInt hacc hfield
            split at h
            · simp at h
            · split_ifs at h
              · exact ih hacc1 h
              · simp at h
                obtain ⟨rfl, _⟩ := h
                exact hacc1

lemma isInt_zero : isInt zero.ID := by
  simp [zero, isInt, minInt, maxInt]

lemma decObject_isInt {a : Schedule} {cs rest : List Char}
    (h : decObject cs = some (a, rest)) : isInt a.ID := by
  unfold decObject at h
  split at h
  · simp at h
  · split_ifs at h
    · simp at h
      obtain ⟨rfl, _⟩ := h
      exact isInt_zero
    · exact decMembers_isInt _ isInt_zero h

lemma decElements_isInt (fuel : Nat) {cs : List Char} {l : List Schedule}
    (h : decElements fuel cs = some l) : ∀ x ∈ l, isInt x.ID := by
  induction fuel generalizing cs l with
  | zero => simp [decElements] at h
  | succ f ih =>
    simp only [decElements] at h
    split at h
    · simp at h
    · split_ifs at h
      split at h
      · simp at h
      · rename_i x cs2 hobj
        have hx := decObject_isInt hobj
        split at h
        · simp at h
        · split_ifs at h
          · split at h
            · rename_i xs hxs
              simp at h
              subst h
              intro y hy
              rcases List.mem_cons.1 hy with rfl | hy
              · exact hx
              · exact ih hxs y hy
            · simp at h
          · simp at h
            subst h
            simpa using hx

lemma unmarshal_isInt {data : String} {l : List Schedule} (h : unmarshal data = .ok l) :
    ∀ x ∈ l, isInt x.ID := by
  unfold unmarshal at h
  split at h
  · simp at h
  · split_ifs at h
    · split at h
      · simp at h
      · split_ifs at h
        · simp at h
          subst h
          simp
        · split at h
          · rename_i l1 hl1
            simp at h
            subst h
            exact decElements_isInt _ hl1
          · simp at h
    · simp at h
      subst h
      simp

end JSONText

lemma specJSON_sound : specJSON.Sound where
  roundTrip := fun l hl => ⟨JSONText.marshal l, rfl, JSONText.unmarshal_marshal l hl⟩
  decodesInt := fun _ _ h => JSONText.unmarshal_isInt h
  emptyArray := JSONText.unmarshal_empty

/-! ## Go integers -/

lemma isInt_wrapInt (x : Int) : isInt (wrapInt x) := by
  unfold isInt wrapInt minInt maxInt
  omega

lemma wrapInt_of_isInt {x : Int} (h : isInt x) : wrapInt x = x := by
  unfold isInt minInt maxInt at h
  unfold wrapInt
  omega

lemma wrapInt_succ {x : Int} (h : isInt x) (hx : x ≠ maxInt) : wrapInt (x + 1) = x + 1 := by
  unfold isInt minInt maxInt at h
  unfold maxInt at hx
  unfold wrapInt
  omega

lemma isInt_one : isInt 1 := by
  unfold isInt minInt maxInt
  omega

/-! ## Reading and saving -/

lemma ReadAll_eq {j : JSON} {d : Disk} {data : String} {l : List Schedule}
    (hd : d.file = some data) (hu : j.Unmarshal data = .ok l) : ReadAll j d = .ok l := by
  simp [ReadAll, os_ReadFile, hd, hu]

lemma ReadAll_isInt {j : JSON} (hj : j.Sound) {d : Disk} {l : List Schedule}
    (h : ReadAll j d = .ok l) : ∀ x ∈ l, isInt x.ID := by
  unfold ReadAll at h
  split at h
  · simp at h
  · rename_i data _
    split at h
    · simp at h
    · rename_i l1 hl1
      simp at h
      subst h
      exact hj.decodesInt data l1 hl1

lemma SaveAll_ok {j : JSON} (hj : j.Sound) (l : List Schedule) (hl : ∀ x ∈ l, isInt x.ID)
    (d : Disk) :
    (SaveAll j l d).1 = none ∧ (SaveAll j l d).2.writes = d.writes + 1 ∧
      ReadAll j (SaveAll j l d).2 = .ok l := by
  obtain ⟨data, hm, hu⟩ := hj.roundTrip l hl
  simp [SaveAll, hm, os_WriteFile, ReadAll, os_ReadFile, hu]

lemma ReadAll_initialized {j : JSON} (hj : j.Sound) {d : Disk} (hd : d.file = none) :
    ReadAll j (Initialize d).2 = .ok [] := by
  have : os_IsNotExist (os_Stat d) = true := by
    simp [os_Stat, hd, os_IsNotExist, Error.Is]
  simp [Initialize, this, os_WriteFile, ReadAll, os_ReadFile, hj.emptyArray]

/-! ## Create -/

lemma nextID_nil : nextID [] = 1 := rfl

lemma nextID_concat (l : List Schedule) (x : Schedule) :
    nextID (l ++ [x]) = wrapInt (x.ID + 1) := by
  simp [nextID]

lemma isInt_nextID (l : List Schedule) : isInt (nextID l) := by
  unfold nextID
  split
  · exact isInt_one
  · exact isInt_wrapInt _

lemma Create_eq {j : JSON} {d : Disk} {l : List Schedule} (r : Schedule)
    (h : ReadAll j d = .ok l) :
    Create j r d =
      match SaveAll j (l ++ [⟨nextID l, r.Title, r.Time, r.Details⟩]) d with
      | (some err, d1) => (some (.Errorf "falha ao salvar alterações: %w" err none), d1)
      | (none, d1) => (none, d1) := by
  unfold Create
  rw [h]
  rcases List.eq_nil_or_concat l with rfl | ⟨l0, x, rfl⟩
  · simp [nextID]
  · simp [nextID]

lemma Create_ok {j : JSON} (hj : j.Sound) {d : Disk} {l : List Schedule} (r : Schedule)
    (h : ReadAll j d = .ok l) :
    (Create j r d).1 = none ∧ (Create j r d).2.writes = d.writes + 1 ∧
      ReadAll j (Create j r d).2 = .ok (l ++ [⟨nextID l, r.Title, r.Time, r.Details⟩]) := by
  have hl : ∀ x ∈ l ++ [(⟨nextID l, r.Title, r.Time, r.Details⟩ : Schedule)], isInt x.ID := by
    intro x hx
    rcases List.mem_append.1 hx with hx | hx
    · exact ReadAll_isInt hj h x hx
    · simp at hx; subst hx; exact isInt_nextID l
  obtain ⟨h1, h2, h3⟩ := SaveAll_ok hj _ hl d
  rw [Create_eq r h]
  generalize SaveAll j (l ++ [⟨nextID l, r.Title, r.Time, r.Details⟩]) d = out at h1 h2 h3
  obtain ⟨e, d1⟩ := out
  simp at h1
  subst h1
  exact ⟨rfl, h2, h3⟩

/-- At the largest `int` the `+ 1` of `Create` wraps: after a record with id
2^63 - 1 the new record gets the id -2^63. -/
lemma Create_wraps :
    ReadAll specJSON (Create specJSON ⟨0, "b", "2", ""⟩
        ⟨some "[\x7b\"id\":9223372036854775807,\"title\":\"a\",\"time\":\"1\"\x7d]", 0⟩).2 =
      .ok [⟨9223372036854775807, "a", "1", ""⟩, ⟨-9223372036854775808, "b", "2", ""⟩] :=
  rfl

/-! ## The search loops of Delete and Update -/

lemma exists_first_with_id {l : List Schedule} {id : Int} (h : ∃ x ∈ l, x.ID = id) :
    ∃ pre x post, l = pre ++ x :: post ∧ (∀ y ∈ pre, y.ID ≠ id) ∧ x.ID = id := by
  induction l with
  | nil => simp at h
  | cons a l ih =>
    by_cases ha : a.ID = id
    · exact ⟨[], a, l, rfl, by simp, ha⟩
    · obtain ⟨x, hx, hxid⟩ := h
      have hx1 : x ∈ l := by
        rcases List.mem_cons.1 hx with rfl | hx
        · exact absurd hxid ha
        · exact hx
      obtain ⟨pre, y, post, rfl, hpre, hy⟩ := ih ⟨x, hx1, hxid⟩
      refine ⟨a :: pre, y, post, rfl, ?_, hy⟩
      intro z hz
      rcases List.mem_cons.1 hz with rfl | hz
      · exact ha
      · exact hpre z hz

lemma first_with_id_unique {id : Int} {pre1 pre2 post1 post2 : List Schedule}
    {x1 x2 : Schedule} (h : pre1 ++ x1 :: post1 = pre2 ++ x2 :: post2)
    (h1 : ∀ y ∈ pre1, y.ID ≠ id) (hx1 : x1.ID = id)
    (h2 : ∀ y ∈ pre2, y.ID ≠ id) (hx2 : x2.ID = id) :
    pre1 = pre2 ∧ x1 = x2 ∧ post1 = post2 := by
  induction pre1 generalizing pre2 with
  | nil =>
    cases pre2 with
    | nil => simpa using h
    | cons b pre2 =>
      simp only [List.nil_append, List.cons_append, List.cons.injEq] at h
      exact absurd (h.1 ▸ hx1) (h2 b (by simp))
  | cons a pre1 ih =>
    cases pre2 with
    | nil =>
      simp only [List.nil_append, List.cons_append, List.cons.injEq] at h
      exact absurd (h.1 ▸ hx2) (h1 a (by simp))
    | cons b pre2 =>
      simp only [List.cons_append, List.cons.injEq] at h
      obtain ⟨rfl, h⟩ := h
      obtain ⟨rfl, rfl, rfl⟩ := ih h (fun y hy => h1 y (by simp [hy]))
        (fun y hy => h2 y (by simp [hy]))
      exact ⟨rfl, rfl, rfl⟩

lemma deleteLoop_missing (id : Int) (data : List Schedule) (i : Nat) (rest : List Schedule)
    (h : ∀ y ∈ rest, y.ID ≠ id) : deleteLoop id data i rest = (false, data) := by
  induction rest generalizing i with
  | nil => rfl
  | cons v rest ih =>
    have hv : v.ID ≠ id := h v (by simp)
    simp only [deleteLoop, hv, if_false]
    exact ih (i + 1) (fun y hy => h y (by simp [hy]))

lemma deleteLoop_found (id : Int) (front mid : List Schedule) (x : Schedule)
    (post : List Schedule) (hmid : ∀ y ∈ mid, y.ID ≠ id) (hx : x.ID = id) :
    deleteLoop id (front ++ (mid ++ x :: post)) front.length (mid ++ x :: post) =
      (true, front ++ (mid ++ post)) := by
  induction mid generalizing front with
  | nil =>
    simp only [List.nil_append, deleteLoop, hx, if_true]
    simp
  | cons m mid ih =>
    have hm : m.ID ≠ id := hmid m (by simp)
    have := ih (front ++ [m]) (fun y hy => hmid y (by simp [hy]))
    simp only [List.cons_append, deleteLoop, hm, if_false]
    simpa using this

lemma updateLoop_missing (id : Int) (r : Schedule) (data : List Schedule) (i : Nat)
    (rest : List Schedule) (h : ∀ y ∈ rest, y.ID ≠ id) :
    updateLoop id r data i rest = (false, data) := by
  induction rest generalizing i with
  | nil => rfl
  | cons v rest ih =>
    have hv : v.ID ≠ id := h v (by simp)
    simp only [updateLoop, hv, if_false]
    exact ih (i + 1) (fun y hy => h y (by simp [hy]))

lemma updateLoop_found (id : Int) (r : Schedule) (front mid : List Schedule) (x : Schedule)
    (post : List Schedule) (hmid : ∀ y ∈ mid, y.ID ≠ id) (hx : x.ID = id) :
    updateLoop id r (front ++ (mid ++ x :: post)) front.length (mid ++ x :: post) =
      (true, front ++ (mid ++ ⟨id, r.Title, r.Time, r.Details⟩ :: post)) := by
  induction mid generalizing front with
  | nil =>
    simp only [List.nil_append, updateLoop, hx, if_true]
    simp
  | cons m mid ih =>
    have hm : m.ID ≠ id := hmid m (by simp)
    have := ih (front ++ [m]) (fun y hy => hmid y (by simp [hy]))
    simp only [List.cons_append, updateLoop, hm, if_false]
    simpa using this

/-! ## Delete and Update -/

lemma Delete_missing {j : JSON} {d : Disk} {l : List Schedule} {id : Int}
    (h : ReadAll j d = .ok l) (hid : ∀ x ∈ l, x.ID ≠ id) :
    Delete j id d = (some (.Errorf "%w: ID %d" ErrScheduleNotFound (some id)), d) := by
  simp [Delete, h, deleteLoop_missing id l 0 l hid]

lemma Update_missing {j : JSON} {d : Disk} {l : List Schedule} {id : Int} (r : Schedule)
    (h : ReadAll j d = .ok l) (hid : ∀ x ∈ l, x.ID ≠ id) :
    Update j id r d = (some (.Errorf "%w: ID %d" ErrScheduleNotFound (some id)), d) := by
  simp [Update, h, updateLoop_missing id r l 0 l hid]

lemma notFound_Is (id : Int) :
    (Error.Errorf "%w: ID %d" ErrScheduleNotFound (some id)).Is ErrScheduleNotFound = true := by
  simp [Error.Is, ErrScheduleNotFound]

lemma Delete_found {j : JSON} (hj : j.Sound) {d : Disk} {pre post : List Schedule}
    {x : Schedule} {id : Int} (h : ReadAll j d = .ok (pre ++ x :: post))
    (hpre : ∀ y ∈ pre, y.ID ≠ id) (hx : x.ID = id) :
    (Delete j id d).1 = none ∧ (Delete j id d).2.writes = d.writes + 1 ∧
      ReadAll j (Delete j id d).2 = .ok (pre ++ post) := by
  have hl : ∀ y ∈ pre ++ post, isInt y.ID := by
    intro y hy
    refine ReadAll_isInt hj h y ?_
    rcases List.mem_append.1 hy with hy | hy <;> simp [hy]
  obtain ⟨h1, h2, h3⟩ := SaveAll_ok hj _ hl d
  have hloop := deleteLoop_found id [] pre x post hpre hx
  simp only [List.nil_append, List.length_nil] at hloop
  unfold Delete
  rw [h]
  simp only [hloop]
  generalize SaveAll j (pre ++ post) d = out at h1 h2 h3
  obtain ⟨e, d1⟩ := out
  simp at h1
  subst h1
  exact ⟨rfl, h2, h3⟩

lemma Update_found {j : JSON} (hj : j.Sound) {d : Disk} {pre post : List Schedule}
    {x : Schedule} {id : Int} (r : Schedule) (h : ReadAll j d = .ok (pre ++ x :: post))
    (hpre : ∀ y ∈ pre, y.ID ≠ id) (hx : x.ID = id) :
    (Update j id r d).1 = none ∧ (Update j id r d).2.writes = d.writes + 1 ∧
      ReadAll j (Update j id r d).2 =
        .ok (pre ++ ⟨id, r.Title, r.Time, r.Details⟩ :: post) := by
  have hl : ∀ y ∈ pre ++ (⟨id, r.Title, r.Time, r.Details⟩ : Schedule) :: post,
      isInt y.ID := by
    intro y hy
    rcases List.mem_append.1 hy with hy | hy
    · exact ReadAll_isInt hj h y (by simp [hy])
    · rcases List.mem_cons.1 hy with rfl | hy
      · have := ReadAll_isInt hj h x (by simp)
        rw [hx] at this
        exact this
      · exact ReadAll_isInt hj h y (by simp [hy])
  obtain ⟨h1, h2, h3⟩ := SaveAll_ok hj _ hl d
  have hloop := updateLoop_found id r [] pre x post hpre hx
  simp only [List.nil_append, List.length_nil] at hloop
  unfold Update
  rw [h]
  simp only [hloop]
  generalize SaveAll j (pre ++ ⟨id, r.Title, r.Time, r.Details⟩ :: post) d = out at h1 h2 h3
  obtain ⟨e, d1⟩ := out
  simp at h1
  subst h1
  exact ⟨rfl, h2, h3⟩

/-! ## Stores with increasing ids -/

lemma Ordered.nil : Ordered 0 [] := ⟨le_refl 0, by simp, by simp⟩

lemma Ordered.nodup {n : Int} {l : List Schedule} (h : Ordered n l) :
    (l.map Schedule.ID).Nodup :=
  h.2.1.imp (fun hab => ne_of_lt hab)

lemma Ordered.nextID_bounds {n : Int} {l : List Schedule} (h : Ordered n l) (hn : n < maxInt) :
    1 ≤ nextID l ∧ nextID l ≤ n + 1 ∧ ∀ x ∈ l, x.ID < nextID l := by
  obtain ⟨h0, hp, hb⟩ := h
  rcases List.eq_nil_or_concat l with rfl | ⟨l0, x, rfl⟩
  · simp [nextID_nil]; omega
  · simp only [List.concat_eq_append] at *
    have hx := hb x.ID (by simp)
    have hxi : isInt x.ID := by unfold isInt minInt; unfold maxInt at *; omega
    have hne : x.ID ≠ maxInt := by omega
    rw [nextID_concat, wrapInt_succ hxi hne]
    refine ⟨by omega, by omega, ?_⟩
    intro y hy
    rcases List.mem_append.1 hy with hy | hy
    · simp only [List.map_append, List.map_cons, List.map_nil] at hp
      have := (List.pairwise_append.1 hp).2.2 y.ID (List.mem_map_of_mem _ hy) x.ID (by simp)
      omega
    · simp at hy; subst hy; omega

lemma Ordered.concat {n : Int} {l : List Schedule} (h : Ordered n l) (hn : n < maxInt)
    (r : Schedule) : Ordered (n + 1) (l ++ [⟨nextID l, r.Title, r.Time, r.Details⟩]) := by
  obtain ⟨h1, h2, h3⟩ := h.nextID_bounds hn
  obtain ⟨h0, hp, hb⟩ := h
  refine ⟨by omega, ?_, ?_⟩
  · simp only [List.map_append, List.map_cons, List.map_nil]
    refine List.pairwise_append.2 ⟨hp, by simp, ?_⟩
    intro a ha b hb1
    simp at hb1
    subst hb1
    obtain ⟨y, hy, rfl⟩ := List.mem_map.1 ha
    exact h3 y hy
  · intro i hi
    simp only [List.map_append, List.map_cons, List.map_nil, List.mem_append,
      List.mem_singleton] at hi
    rcases hi with hi | rfl
    · have := hb i hi
      omega
    · omega

lemma Ordered.erase {n : Int} {pre post : List Schedule} {x : Schedule}
    (h : Ordered n (pre ++ x :: post)) : Ordered n (pre ++ post) := by
  obtain ⟨h0, hp, hb⟩ := h
  have hs : List.Sublist ((pre ++ post).map Schedule.ID) ((pre ++ x :: post).map Schedule.ID) :=
    List.Sublist.map _ (List.Sublist.append_left (List.sublist_cons_self x post) pre)
  exact ⟨h0, hp.sublist hs, fun i hi => hb i (hs.subset hi)⟩

lemma Ordered.replace {n : Int} {pre post : List Schedule} {x : Schedule}
    (h : Ordered n (pre ++ x :: post)) (r : Schedule) :
    Ordered n (pre ++ ⟨x.ID, r.Title, r.Time, r.Details⟩ :: post) := by
  have : (pre ++ (⟨x.ID, r.Title, r.Time, r.Details⟩ : Schedule) :: post).map Schedule.ID =
      (pre ++ x :: post).map Schedule.ID := by simp
  unfold Ordered
  rw [this]
  exact h

/-! ## Runs -/

lemma exec_ordered {j : JSON} (hj : j.Sound) {d : Disk} {l : List Schedule} {n : Int}
    (c : Call) (h : ReadAll j d = .ok l) (ho : Ordered n l)
    (hn : n + (if c.isCreate then 1 else 0) ≤ maxInt) :
    ∃ l1, ReadAll j (c.exec j d).2 = .ok l1 ∧
      Ordered (n + (if c.isCreate then 1 else 0)) l1 := by
  cases c with
  | create r =>
    simp only [Call.isCreate, if_true] at hn ⊢
    exact ⟨_, (Create_ok hj r h).2.2, ho.concat (by omega) r⟩
  | update id r =>
    simp only [Call.isCreate, Bool.false_eq_true, if_false, add_zero] at hn ⊢
    by_cases hid : ∃ x ∈ l, x.ID = id
    · obtain ⟨pre, x, post, rfl, hpre, hx⟩ := exists_first_with_id hid
      refine ⟨_, (Update_found hj r h hpre hx).2.2, ?_⟩
      rw [← hx]
      exact ho.replace r
    · have hid1 : ∀ x ∈ l, x.ID ≠ id := fun x hx hxid => hid ⟨x, hx, hxid⟩
      simp only [Call.exec, Update_missing r h hid1]
      exact ⟨l, h, ho⟩
  | delete id =>
    simp only [Call.isCreate, Bool.false_eq_true, if_false, add_zero] at hn ⊢
    by_cases hid : ∃ x ∈ l, x.ID = id
    · obtain ⟨pre, x, post, rfl, hpre, hx⟩ := exists_first_with_id hid
      exact ⟨_, (Delete_found hj h hpre hx).2.2, ho.erase⟩
    · have hid1 : ∀ x ∈ l, x.ID ≠ id := fun x hx hxid => hid ⟨x, hx, hxid⟩
      simp only [Call.exec, Delete_missing h hid1]
      exact ⟨l, h, ho⟩

lemma run_ordered {j : JSON} (hj : j.Sound) (calls : List Call) {d : Disk}
    {l : List Schedule} {n : Int} (h : ReadAll j d = .ok l) (ho : Ordered n l)
    (hn : n + (calls.countP Call.isCreate : Int) ≤ maxInt) :
    ∃ l1, ReadAll j (run j calls d).2 = .ok l1 ∧
      Ordered (n + (calls.countP Call.isCreate : Int)) l1 := by
  induction calls generalizing d l n with
  | nil => exact ⟨l, h, by simpa using ho⟩
  | cons c calls ih =>
    have hc : ((List.countP Call.isCreate (c :: calls) : Nat) : Int) =
        (if c.isCreate then 1 else 0) + (List.countP Call.isCreate calls : Int) := by
      rw [List.countP_cons]
      split_ifs
      · simp; omega
      · simp
    rw [hc] at hn ⊢
    have h0 : (0 : Int) ≤ (List.countP Call.isCreate calls : Int) := Int.ofNat_nonneg _
    obtain ⟨l1, hl1, ho1⟩ := exec_ordered hj c h ho (by split_ifs at hn ⊢ <;> omega)
    obtain ⟨l2, hl2, ho2⟩ := ih hl1 ho1 (by omega)
    refine ⟨l2, hl2, ?_⟩
    rw [← add_assoc]
    exact ho2

lemma run_ordered_initialized {j : JSON} (hj : j.Sound) {d : Disk} (hd : d.file = none)
    (calls : List Call) (hn : (calls.countP Call.isCreate : Int) ≤ maxInt) :
    ∃ l, ReadAll j (run j calls (Initialize d).2).2 = .ok l ∧
      Ordered (calls.countP Call.isCreate : Int) l := by
  have := run_ordered hj calls (ReadAll_initialized hj hd) Ordered.nil (by simpa using hn)
  simpa using this

/-! ## Sequences of Create -/

lemma length_numbered (n : Int) (rs : List Schedule) : (numbered n rs).length = rs.length := by
  induction rs generalizing n with
  | nil => rfl
  | cons r rs ih => simp [numbered, ih]

lemma getElem?_numbered (n : Int) (rs : List Schedule) (k : Nat) (hk : k < rs.length) :
    (numbered n rs)[k]? = some ⟨n + k, rs[k].Title, rs[k].Time, rs[k].Details⟩ := by
  induction rs generalizing n k with
  | nil => simp at hk
  | cons r rs ih =>
    cases k with
    | zero => simp [numbered]
    | succ k =>
      simp only [numbered, List.getElem?_cons_succ, List.getElem_cons_succ]
      rw [ih (n + 1) k (by simpa using hk)]
      simp only [Nat.cast_add, Nat.cast_one]
      congr 2
      omega

lemma run_creates {j : JSON} (hj : j.Sound) (rs : List Schedule) {d : Disk}
    {l : List Schedule} {n : Int} (h : ReadAll j d = .ok l) (h0 : 0 ≤ n)
    (hnext : nextID l = wrapInt (n + 1)) (hn : n + (rs.length : Int) ≤ maxInt) :
    (∀ e ∈ (run j (rs.map Call.create) d).1, e = none) ∧
      ReadAll j (run j (rs.map Call.create) d).2 = .ok (l ++ numbered (n + 1) rs) := by
  induction rs generalizing d l n with
  | nil => simpa [run, numbered] using h
  | cons r rs ih =>
    simp only [List.length_cons, Nat.cast_add, Nat.cast_one] at hn
    have hlen : (0 : Int) ≤ (rs.length : Int) := Int.ofNat_nonneg _
    have hi : isInt (n + 1) := by unfold isInt minInt; unfold maxInt at *; omega
    have hid : nextID l = n + 1 := by rw [hnext, wrapInt_of_isInt hi]
    obtain ⟨c1, _, c3⟩ := Create_ok hj r h
    rw [hid] at c3
    have hnext1 : nextID (l ++ [(⟨n + 1, r.Title, r.Time, r.Details⟩ : Schedule)]) =
        wrapInt (n + 1 + 1) := nextID_concat _ _
    obtain ⟨i1, i2⟩ := ih c3 (by omega) hnext1 (by omega)
    constructor
    · intro e he
      simp only [List.map_cons, run, Call.exec, List.mem_cons] at he
      rcases he with rfl | he
      · exact c1
      · exact i1 e he
    · simp only [List.map_cons, run, Call.exec]
      rw [i2]
      simp [numbered]

/-! ## The largest id -/

lemma maxID_of_last_max {l : List Schedule} {last : Schedule} (hlast : l.getLast? = some last)
    (hmax : ∀ x ∈ l, x.ID ≤ last.ID) : maxID l = some last.ID := by
  induction l with
  | nil => simp at hlast
  | cons x xs ih =>
    cases xs with
    | nil =>
      simp at hlast
      subst hlast
      simp [maxID]
    | cons y ys =>
      have h1 : (y :: ys).getLast? = some last := by
        simpa [List.getLast?_cons_cons] using hlast
      have h2 := ih h1 (fun z hz => hmax z (by simp [List.mem_cons.1 hz]))
      have hx : x.ID ≤ last.ID := hmax x (by simp)
      simp only [maxID] at h2 ⊢
      rw [h2]
      simp [max_eq_right hx]

/-! ## Stores with a given document -/

lemma ReadAll_diskOf (l : List Schedule) (hl : ∀ x ∈ l, isInt x.ID) :
    ReadAll specJSON (diskOf l) = .ok l :=
  ReadAll_eq rfl (JSONText.unmarshal_marshal l hl)

/-! ## The storage contract -/

/-- C1. On a store whose document parses to `L`, `Create r` returns no error
and leaves a document that parses to `L` followed by one record carrying the
title, time and details of `r`; the id of that record is 1 when `L` is empty
and otherwise the id of the last record of `L` plus 1 in Go's `int`
arithmetic, which is that id plus 1 unless the last id is the largest `int`.
The id carried by `r` plays no role. -/
theorem create_appends (j : JSON) (hj : j.Sound) (d : Disk) (L : List Schedule)
    (r : Schedule) (hL : ReadAll j d = .ok L) :
    (Create j r d).1 = none ∧
    ∃ id : Int,
      ReadAll j (Create j r d).2 = .ok (L ++ [⟨id, r.Title, r.Time, r.Details⟩]) ∧
      (L = [] → id = 1) ∧
      (∀ last, L.getLast? = some last →
        id = wrapInt (last.ID + 1) ∧ (last.ID ≠ maxInt → id = last.ID + 1)) := by
  obtain ⟨h1, _, h3⟩ := Create_ok hj r hL
  refine ⟨h1, nextID L, h3, ?_, ?_⟩
  · rintro rfl
    rfl
  · intro last hlast
    have hid : nextID L = wrapInt (last.ID + 1) := by simp [nextID, hlast]
    refine ⟨hid, fun hne => ?_⟩
    rw [hid]
    exact wrapInt_succ (ReadAll_isInt hj hL last (List.mem_of_getLast?_eq_some hlast)) hne

/-- C1 on the freshly initialized store: after one `Create`, `ReadAll` returns
exactly one record, with id 1 and the supplied fields. -/
theorem create_appends_witness :
    ReadAll specJSON (Create specJSON ⟨7, "T", "20:20", "D"⟩ (Initialize ⟨none, 0⟩).2).2 =
      .ok [⟨1, "T", "20:20", "D"⟩] := by
  obtain ⟨_, id, h, hid, _⟩ := create_appends specJSON specJSON_sound (Initialize ⟨none, 0⟩).2 []
    ⟨7, "T", "20:20", "D"⟩ (ReadAll_initialized specJSON_sound rfl)
  rw [hid rfl] at h
  exact h

/-- C2. When the store's list `L` has a record with id `id`, `Update id r`
returns no error and the list it leaves is `L` with the first record whose id
is `id` replaced, in place, by the record with that id and the title, time
and details of `r`; nothing else moves or changes and the length is kept. -/
theorem update_replaces_first (j : JSON) (hj : j.Sound) (d : Disk) (L : List Schedule)
    (id : Int) (r : Schedule) (hL : ReadAll j d = .ok L) (hid : ∃ x ∈ L, x.ID = id) :
    (Update j id r d).1 = none ∧
    ∃ pre x post L1, L = pre ++ x :: post ∧ (∀ y ∈ pre, y.ID ≠ id) ∧ x.ID = id ∧
      L1 = pre ++ ⟨id, r.Title, r.Time, r.Details⟩ :: post ∧
      ReadAll j (Update j id r d).2 = .ok L1 ∧ L1.length = L.length := by
  obtain ⟨pre, x, post, rfl, hpre, hx⟩ := exists_first_with_id hid
  obtain ⟨h1, _, h3⟩ := Update_found hj r hL hpre hx
  exact ⟨h1, pre, x, post, _, rfl, hpre, hx, rfl, h3, by simp⟩

/-- C2 on a store with two records carrying the same id: only the first one is
replaced, and the id of the supplied record is ignored. -/
theorem update_replaces_first_witness :
    (Update specJSON 1 ⟨9, "c", "d", "e"⟩
        (diskOf [⟨2, "x", "y", ""⟩, ⟨1, "a", "b", ""⟩, ⟨1, "p", "q", ""⟩])).1 = none ∧
    ReadAll specJSON (Update specJSON 1 ⟨9, "c", "d", "e"⟩
        (diskOf [⟨2, "x", "y", ""⟩, ⟨1, "a", "b", ""⟩, ⟨1, "p", "q", ""⟩])).2 =
      .ok [⟨2, "x", "y", ""⟩, ⟨1, "c", "d", "e"⟩, ⟨1, "p", "q", ""⟩] := by
  have hL := ReadAll_diskOf [⟨2, "x", "y", ""⟩, ⟨1, "a", "b", ""⟩, ⟨1, "p", "q", ""⟩]
    (by simp [isInt, minInt, maxInt])
  obtain ⟨h1, pre, x, post, L1, hsplit, hpre, hx, rfl, hread, _⟩ :=
    update_replaces_first specJSON specJSON_sound _ _ 1 ⟨9, "c", "d", "e"⟩ hL
      ⟨⟨1, "a", "b", ""⟩, by simp, rfl⟩
  have hsplit1 : [(⟨2, "x", "y", ""⟩ : Schedule)] ++ ⟨1, "a", "b", ""⟩ :: [⟨1, "p", "q", ""⟩] =
      pre ++ x :: post := hsplit
  obtain ⟨rfl, rfl, rfl⟩ := first_with_id_unique hsplit1 (by simp) rfl hpre hx
  exact ⟨h1, hread⟩

/-- C3. When the id occurs in the store's list `L`, `Delete id` returns no
error and the list it leaves is `L` without the first record whose id is
`id`: one record fewer, the others unchanged and in the same order. -/
theorem delete_removes_first (j : JSON) (hj : j.Sound) (d : Disk) (L : List Schedule)
    (id : Int) (hL : ReadAll j d = .ok L) (hid : ∃ x ∈ L, x.ID = id) :
    (Delete j id d).1 = none ∧
    ∃ pre x post, L = pre ++ x :: post ∧ (∀ y ∈ pre, y.ID ≠ id) ∧ x.ID = id ∧
      ReadAll j (Delete j id d).2 = .ok (pre ++ post) ∧
      (pre ++ post).length + 1 = L.length := by
  obtain ⟨pre, x, post, rfl, hpre, hx⟩ := exists_first_with_id hid
  obtain ⟨h1, _, h3⟩ := Delete_found hj hL hpre hx
  exact ⟨h1, pre, x, post, rfl, hpre, hx, h3, by simp; omega⟩

/-- C3 on a store with two records carrying the same id: only the first one is
removed. -/
theorem delete_removes_first_witness :
    (Delete specJSON 1
        (diskOf [⟨2, "x", "y", ""⟩, ⟨1, "a", "b", ""⟩, ⟨3, "u", "v", "w"⟩, ⟨1, "p", "q", ""⟩])).1
      = none ∧
    ReadAll specJSON (Delete specJSON 1
        (diskOf [⟨2, "x", "y", ""⟩, ⟨1, "a", "b", ""⟩, ⟨3, "u", "v", "w"⟩, ⟨1, "p", "q", ""⟩])).2 =
      .ok [⟨2, "x", "y", ""⟩, ⟨3, "u", "v", "w"⟩, ⟨1, "p", "q", ""⟩] := by
  have hL := ReadAll_diskOf
    [⟨2, "x", "y", ""⟩, ⟨1, "a", "b", ""⟩, ⟨3, "u", "v", "w"⟩, ⟨1, "p", "q", ""⟩]
    (by simp [isInt, minInt, maxInt])
  obtain ⟨h1, pre, x, post, hsplit, hpre, hx, hread, _⟩ :=
    delete_removes_first specJSON specJSON_sound _ _ 1 hL ⟨⟨1, "a", "b", ""⟩, by simp, rfl⟩
  have hsplit1 : [(⟨2, "x", "y", ""⟩ : Schedule)] ++
      ⟨1, "a", "b", ""⟩ :: [⟨3, "u", "v", "w"⟩, ⟨1, "p", "q", ""⟩] = pre ++ x :: post := hsplit
  obtain ⟨rfl, rfl, rfl⟩ := first_with_id_unique hsplit1 (by simp) rfl hpre hx
  exact ⟨h1, hread⟩

/-- C4. When no record of the store carries the id, `Update` and `Delete`
each return an error that wraps `ErrScheduleNotFound` and leave the disk as
it was: same content and no call of `os.WriteFile`. -/
theorem missing_id_not_found (j : JSON) (d : Disk) (L : List Schedule) (id : Int)
    (r : Schedule) (hL : ReadAll j d = .ok L) (hid : ∀ x ∈ L, x.ID ≠ id) :
    (∃ e, Update j id r d = (some e, d) ∧ e.Is ErrScheduleNotFound = true) ∧
    (∃ e, Delete j id d = (some e, d) ∧ e.Is ErrScheduleNotFound = true) :=
  ⟨⟨_, Update_missing r hL hid, notFound_Is id⟩, ⟨_, Delete_missing hL hid, notFound_Is id⟩⟩

/-- C4 on the freshly initialized store, with the id and record of the test
`TestStorageErrors`. -/
theorem missing_id_not_found_witness :
    (∃ e, Update specJSON 999 ⟨0, "", "", ""⟩ (Initialize ⟨none, 0⟩).2 =
        (some e, (Initialize ⟨none, 0⟩).2) ∧ e.Is ErrScheduleNotFound = true) ∧
    (∃ e, Delete specJSON 999 (Initialize ⟨none, 0⟩).2 =
        (some e, (Initialize ⟨none, 0⟩).2) ∧ e.Is ErrScheduleNotFound = true) :=
  missing_id_not_found specJSON (Initialize ⟨none, 0⟩).2 [] 999 ⟨0, "", "", ""⟩
    (ReadAll_initialized specJSON_sound rfl) (by simp)

/-- C5. Starting from the document `[]`, `Create` called on each of the
records `rs` in turn returns no error, and `ReadAll` then returns as many
records as `rs` has, the `k`-th (from 0) with id `k + 1` and the title, time
and details of the `k`-th call.  The number of calls is at most the largest
Go `int`, as the length of a slice is. -/
theorem create_sequence_ids (j : JSON) (hj : j.Sound) (d : Disk) (hd : d.file = some "[]")
    (rs : List Schedule) (hN : (rs.length : Int) ≤ maxInt) :
    (∀ e ∈ (run j (rs.map Call.create) d).1, e = none) ∧
    ∃ L, ReadAll j (run j (rs.map Call.create) d).2 = .ok L ∧ L.length = rs.length ∧
      ∀ (k : Nat) (hk : k < rs.length),
        L[k]? = some ⟨(k : Int) + 1, rs[k].Title, rs[k].Time, rs[k].Details⟩ := by
  have h0 : ReadAll j d = .ok [] := ReadAll_eq hd hj.emptyArray
  obtain ⟨h1, h2⟩ := run_creates hj rs h0 (le_refl 0) (by simp [nextID_nil, wrapInt])
    (by simpa using hN)
  refine ⟨h1, _, h2, by simp [length_numbered], ?_⟩
  intro k hk
  simp only [List.nil_append, zero_add]
  rw [getElem?_numbered 1 rs k hk]
  congr 2
  omega

/-- C5 for three calls on the freshly initialized store. -/
theorem create_sequence_ids_witness :
    ∃ L, ReadAll specJSON (run specJSON
        ([⟨0, "a", "1", ""⟩, ⟨0, "b", "2", "x"⟩, ⟨5, "c", "3", ""⟩].map Call.create)
        (Initialize ⟨none, 0⟩).2).2 = .ok L ∧ L.length = 3 ∧
      L[0]? = some ⟨1, "a", "1", ""⟩ ∧ L[1]? = some ⟨2, "b", "2", "x"⟩ ∧
      L[2]? = some ⟨3, "c", "3", ""⟩ := by
  obtain ⟨_, L, h, hlen, hk⟩ := create_sequence_ids specJSON specJSON_sound
    (Initialize ⟨none, 0⟩).2 rfl [⟨0, "a", "1", ""⟩, ⟨0, "b", "2", "x"⟩, ⟨5, "c", "3", ""⟩]
    (by simp [maxInt])
  exact ⟨L, h, hlen, hk 0 (by simp), hk 1 (by simp), hk 2 (by simp)⟩

/-- C6. In the state the initialized empty store reaches after any sequence of
`Create`, `Update` and `Delete` calls, whatever each returned, the document
parses and the ids of its records are pairwise distinct.  The sequence holds
at most 2^63 - 1 `Create` calls, the number below which the id counter of
`Create` does not wrap. -/
theorem ids_distinct (j : JSON) (hj : j.Sound) (d : Disk) (hd : d.file = none)
    (calls : List Call) (hN : (calls.countP Call.isCreate : Int) ≤ maxInt) :
    ∃ L, ReadAll j (run j calls (Initialize d).2).2 = .ok L ∧
      (L.map Schedule.ID).Nodup := by
  obtain ⟨L, hL, ho⟩ := run_ordered_initialized hj hd calls hN
  exact ⟨L, hL, ho.nodup⟩

/-- C6 for a run with successful and failing calls: the records left and
their ids. -/
theorem ids_distinct_witness :
    ReadAll specJSON (run specJSON
        [.create ⟨0, "a", "1", ""⟩, .create ⟨0, "b", "2", ""⟩, .delete 1,
          .update 2 ⟨7, "c", "3", ""⟩, .delete 9, .create ⟨0, "d", "4", ""⟩]
        (Initialize ⟨none, 0⟩).2).2 = .ok [⟨2, "c", "3", ""⟩, ⟨3, "d", "4", ""⟩] ∧
    (List.map Schedule.ID [⟨2, "c", "3", ""⟩, ⟨3, "d", "4", ""⟩]).Nodup := by
  obtain ⟨L, hL, hnd⟩ := ids_distinct specJSON specJSON_sound ⟨none, 0⟩ rfl
    [.create ⟨0, "a", "1", ""⟩, .create ⟨0, "b", "2", ""⟩, .delete 1,
      .update 2 ⟨7, "c", "3", ""⟩, .delete 9, .create ⟨0, "d", "4", ""⟩]
    (by simp [Call.isCreate, maxInt])
  have hrun : ReadAll specJSON (run specJSON
      [.create ⟨0, "a", "1", ""⟩, .create ⟨0, "b", "2", ""⟩, .delete 1,
        .update 2 ⟨7, "c", "3", ""⟩, .delete 9, .create ⟨0, "d", "4", ""⟩]
      (Initialize ⟨none, 0⟩).2).2 = .ok [⟨2, "c", "3", ""⟩, ⟨3, "d", "4", ""⟩] := rfl
  rw [hrun] at hL
  cases hL
  exact ⟨hrun, hnd⟩

/-- C7 fails: on the freshly initialized store two records are created, with
ids 1 and 2, the record with id 2 is deleted, and the next `Create` gives
id 2 to a new record. -/
theorem id_reused_after_delete :
    (run specJSON [.create ⟨0, "a", "1", ""⟩, .create ⟨0, "b", "2", ""⟩, .delete 2]
        (Initialize ⟨none, 0⟩).2).1 = [none, none, none] ∧
    ReadAll specJSON (run specJSON [.create ⟨0, "a", "1", ""⟩, .create ⟨0, "b", "2", ""⟩]
        (Initialize ⟨none, 0⟩).2).2 = .ok [⟨1, "a", "1", ""⟩, ⟨2, "b", "2", ""⟩] ∧
    ReadAll specJSON (run specJSON
        [.create ⟨0, "a", "1", ""⟩, .create ⟨0, "b", "2", ""⟩, .delete 2]
        (Initialize ⟨none, 0⟩).2).2 = .ok [⟨1, "a", "1", ""⟩] ∧
    ReadAll specJSON (Create specJSON ⟨0, "c", "3", ""⟩ (run specJSON
        [.create ⟨0, "a", "1", ""⟩, .create ⟨0, "b", "2", ""⟩, .delete 2]
        (Initialize ⟨none, 0⟩).2).2).2 = .ok [⟨1, "a", "1", ""⟩, ⟨2, "c", "3", ""⟩] := by
  exact ⟨by decide, rfl, rfl, rfl⟩

/-- C7 as amended.  From the initialized empty store, after any calls among
which a `Delete k`, with fewer than 2^63 - 1 `Create` calls in all, the id `n`
the next `Create` assigns is strictly greater than the id of every record
stored at that moment; it is `k` again only when every stored id is below
`k`. -/
theorem created_id_above_stored (j : JSON) (hj : j.Sound) (d : Disk) (hd : d.file = none)
    (calls1 : List Call) (k : Int) (calls2 : List Call) (r : Schedule)
    (hN : ((calls1 ++ Call.delete k :: calls2).countP Call.isCreate : Int) < maxInt) :
    ∃ L n, ReadAll j (run j (calls1 ++ Call.delete k :: calls2) (Initialize d).2).2 = .ok L ∧
      ReadAll j (Create j r
          (run j (calls1 ++ Call.delete k :: calls2) (Initialize d).2).2).2 =
        .ok (L ++ [⟨n, r.Title, r.Time, r.Details⟩]) ∧
      (∀ x ∈ L, x.ID < n) ∧ (n = k → ∀ x ∈ L, x.ID < k) := by
  obtain ⟨L, hL, ho⟩ := run_ordered_initialized hj hd (calls1 ++ Call.delete k :: calls2)
    (le_of_lt hN)
  have hb := (ho.nextID_bounds hN).2.2
  exact ⟨L, nextID L, hL, (Create_ok hj r hL).2.2, hb, fun hk => hk ▸ hb⟩

/-- C7 as amended, on a run where the deleted id is not the highest one: the
next `Create` assigns 3, above the stored id 2, and not the deleted id 1. -/
theorem created_id_above_stored_witness :
    ReadAll specJSON (run specJSON
        ([.create ⟨0, "a", "1", ""⟩, .create ⟨0, "b", "2", ""⟩] ++ Call.delete 1 :: [])
        (Initialize ⟨none, 0⟩).2).2 = .ok [⟨2, "b", "2", ""⟩] ∧
    ∃ n, ReadAll specJSON (Create specJSON ⟨0, "c", "3", ""⟩ (run specJSON
        ([.create ⟨0, "a", "1", ""⟩, .create ⟨0, "b", "2", ""⟩] ++ Call.delete 1 :: [])
        (Initialize ⟨none, 0⟩).2).2).2 = .ok [⟨2, "b", "2", ""⟩, ⟨n, "c", "3", ""⟩] ∧
      2 < n ∧ n ≠ 1 := by
  obtain ⟨L, n, hL, hC, hlt, _⟩ := created_id_above_stored specJSON specJSON_sound ⟨none, 0⟩
    rfl [.create ⟨0, "a", "1", ""⟩, .create ⟨0, "b", "2", ""⟩] 1 [] ⟨0, "c", "3", ""⟩
    (by simp [Call.isCreate, maxInt])
  have hrun : ReadAll specJSON (run specJSON
      ([.create ⟨0, "a", "1", ""⟩, .create ⟨0, "b", "2", ""⟩] ++ Call.delete 1 :: [])
      (Initialize ⟨none, 0⟩).2).2 = .ok [⟨2, "b", "2", ""⟩] := rfl
  rw [hrun] at hL
  cases hL
  have h2 : (2 : Int) < n := hlt ⟨2, "b", "2", ""⟩ (by simp)
  exact ⟨hrun, n, hC, h2, by omega⟩

/-- C8 fails: on a document whose records carry the ids 5 and 3, in that
order, `Create` assigns the id 4, which is neither the largest id plus 1 nor
greater than the stored id 5. -/
theorem create_id_not_max_plus_one :
    ReadAll specJSON
        ⟨some ("[\x7b\"id\":5,\"title\":\"a\",\"time\":\"1\"\x7d," ++
          "\x7b\"id\":3,\"title\":\"b\",\"time\":\"2\"\x7d]"), 0⟩ =
      .ok [⟨5, "a", "1", ""⟩, ⟨3, "b", "2", ""⟩] ∧
    ReadAll specJSON (Create specJSON ⟨0, "c", "3", ""⟩
        ⟨some ("[\x7b\"id\":5,\"title\":\"a\",\"time\":\"1\"\x7d," ++
          "\x7b\"id\":3,\"title\":\"b\",\"time\":\"2\"\x7d]"), 0⟩).2 =
      .ok [⟨5, "a", "1", ""⟩, ⟨3, "b", "2", ""⟩, ⟨4, "c", "3", ""⟩] ∧
    maxID [⟨5, "a", "1", ""⟩, ⟨3, "b", "2", ""⟩] = some 5 := by
  have hL : ReadAll specJSON
      ⟨some ("[\x7b\"id\":5,\"title\":\"a\",\"time\":\"1\"\x7d," ++
        "\x7b\"id\":3,\"title\":\"b\",\"time\":\"2\"\x7d]"), 0⟩ =
      .ok [⟨5, "a", "1", ""⟩, ⟨3, "b", "2", ""⟩] := rfl
  have n4 : nextID [(⟨5, "a", "1", ""⟩ : Schedule), ⟨3, "b", "2", ""⟩] = 4 := by decide
  refine ⟨hL, ?_, by decide⟩
  have := (Create_ok specJSON_sound ⟨0, "c", "3", ""⟩ hL).2.2
  rw [n4] at this
  exact this

/-- C8 as amended.  On a store whose document parses to `L`, `Create` assigns
the id 1 when `L` is empty and otherwise the id of the last record plus 1 in
Go's `int` arithmetic.  When the last record carries the largest id of `L`
and that id is below the largest `int`, the new id is the largest id plus 1
and is strictly greater than every id of `L`. -/
theorem create_id_last_plus_one (j : JSON) (hj : j.Sound) (d : Disk) (L : List Schedule)
    (r : Schedule) (hL : ReadAll j d = .ok L) :
    ∃ n, ReadAll j (Create j r d).2 = .ok (L ++ [⟨n, r.Title, r.Time, r.Details⟩]) ∧
      (L = [] → n = 1) ∧
      (∀ last, L.getLast? = some last → n = wrapInt (last.ID + 1)) ∧
      (∀ last, L.getLast? = some last → (∀ x ∈ L, x.ID ≤ last.ID) → last.ID < maxInt →
        ∃ m, maxID L = some m ∧ n = m + 1 ∧ ∀ x ∈ L, x.ID < n) := by
  refine ⟨nextID L, (Create_ok hj r hL).2.2, ?_, ?_, ?_⟩
  · rintro rfl
    rfl
  · intro last hlast
    simp [nextID, hlast]
  · intro last hlast hmax hlt
    have hid : nextID L = last.ID + 1 := by
      have : nextID L = wrapInt (last.ID + 1) := by simp [nextID, hlast]
      rw [this, wrapInt_succ (ReadAll_isInt hj hL last (List.mem_of_getLast?_eq_some hlast))
        (ne_of_lt hlt)]
    refine ⟨last.ID, maxID_of_last_max hlast hmax, hid, fun x hx => ?_⟩
    have := hmax x hx
    omega

/-- C8 as amended, on a document with the ids 1, 4, 6: the new id is 7. -/
theorem create_id_last_plus_one_witness :
    ReadAll specJSON (Create specJSON ⟨0, "d", "4", ""⟩
        (diskOf [⟨1, "a", "1", ""⟩, ⟨4, "b", "2", ""⟩, ⟨6, "c", "3", ""⟩])).2 =
      .ok [⟨1, "a", "1", ""⟩, ⟨4, "b", "2", ""⟩, ⟨6, "c", "3", ""⟩, ⟨7, "d", "4", ""⟩] ∧
    maxID [⟨1, "a", "1", ""⟩, ⟨4, "b", "2", ""⟩, ⟨6, "c", "3", ""⟩] = some 6 := by
  obtain ⟨n, h, _, _, h4⟩ := create_id_last_plus_one specJSON specJSON_sound _ _
    ⟨0, "d", "4", ""⟩
    (ReadAll_diskOf [⟨1, "a", "1", ""⟩, ⟨4, "b", "2", ""⟩, ⟨6, "c", "3", ""⟩]
      (by simp [isInt, minInt, maxInt]))
  obtain ⟨m, hm, rfl, _⟩ := h4 ⟨6, "c", "3", ""⟩ rfl (by simp) (by simp [maxInt])
  have h6 : maxID [⟨1, "a", "1", ""⟩, ⟨4, "b", "2", ""⟩, ⟨6, "c", "3", ""⟩] = some 6 := by
    simp [maxID]
  rw [h6] at hm
  cases hm
  exact ⟨h, h6⟩

/-- C9. `Initialize` on an absent file returns no error and leaves the file
with the content `[]`; on a present file it returns no error and leaves the
disk as it was, whatever the content; run a second time it returns no error
and changes nothing. -/
theorem initialize_idempotent (w : Nat) (c : String) (d : Disk) :
    Initialize ⟨none, w⟩ = (none, ⟨some "[]", w + 1⟩) ∧
    Initialize ⟨some c, w⟩ = (none, ⟨some c, w⟩) ∧
    Initialize (Initialize d).2 = (none, (Initialize d).2) := by
  refine ⟨?_, ?_, ?_⟩
  · simp [Initialize, os_Stat, os_IsNotExist, Error.Is, os_WriteFile]
  · simp [Initialize, os_Stat, os_IsNotExist]
  · obtain ⟨f, w1⟩ := d
    cases f with
    | none => simp [Initialize, os_Stat, os_IsNotExist, Error.Is, os_WriteFile]
    | some c1 => simp [Initialize, os_Stat, os_IsNotExist]

/-- C10. With the file format modelled from the spec: for every list of
records whose ids are Go ints, whatever its strings, `SaveAll` returns no
error and writes the text `JSONText.marshal l`, and `ReadAll` then returns
the same list; the object of a record with empty details has the members
`id`, `title` and `time` and no other. -/
theorem save_then_read (d : Disk) (l : List Schedule) (hl : ∀ x ∈ l, isInt x.ID) :
    (SaveAll specJSON l d).1 = none ∧
    (SaveAll specJSON l d).2.file = some (JSONText.marshal l) ∧
    ReadAll specJSON (SaveAll specJSON l d).2 = .ok l ∧
    ∀ x : Schedule, x.Details = "" →
      JSONText.encFields x =
        ['\n', ' ', ' ', '"', 'i', 'd', '"', ':', ' '] ++ (JSONText.encInt x.ID ++
        ([',', '\n', ' ', ' ', '"', 't', 'i', 't', 'l', 'e', '"', ':', ' '] ++
          (JSONText.encString x.Title ++
        ([',', '\n', ' ', ' ', '"', 't', 'i', 'm', 'e', '"', ':', ' '] ++
          JSONText.encString x.Time)))) := by
  refine ⟨(SaveAll_ok specJSON_sound l hl d).1, rfl, (SaveAll_ok specJSON_sound l hl d).2.2, ?_⟩
  intro x hx
  simp [JSONText.encFields, hx]

/-- C10 on two records, one with empty details, the other with a negative id
and characters that are written as escapes: the text written and the list
read back. -/
theorem save_then_read_witness :
    (SaveAll specJSON [⟨1, "T", "20:20", ""⟩, ⟨-12, "a<b", "x\"y", "D"⟩] ⟨none, 0⟩).2.file =
      some ("[\n \x7b\n  \"id\": 1,\n  \"title\": \"T\",\n  \"time\": \"20:20\"\n \x7d,\n \x7b\n" ++
        "  \"id\": -12,\n  \"title\": \"a\\u003cb\",\n  \"time\": \"x\\\"y\",\n" ++
        "  \"details\": \"D\"\n \x7d\n]") ∧
    ReadAll specJSON
        (SaveAll specJSON [⟨1, "T", "20:20", ""⟩, ⟨-12, "a<b", "x\"y", "D"⟩] ⟨none, 0⟩).2 =
      .ok [⟨1, "T", "20:20", ""⟩, ⟨-12, "a<b", "x\"y", "D"⟩] := by
  obtain ⟨_, h2, h3, _⟩ := save_then_read ⟨none, 0⟩
    [⟨1, "T", "20:20", ""⟩, ⟨-12, "a<b", "x\"y", "D"⟩] (by simp [isInt, minInt, maxInt])
  refine ⟨?_, h3⟩
  rw [h2]
  decide

end TodoCli
